import Mathlib

/-!
# Verification of the bf-i18n core translation pipeline

Shallow embedding of the TypeScript sources of `bf-i18n` (packages/core):
`pluralizer.ts`, `interpolator.ts`, `translator.ts`, the compatibility
checker in `schemas/translation.ts`, and the `I18n` facade.

JavaScript strings are modelled as `List Char` (with `String` wrappers at
the outer API), JS numbers that the claims exercise as `Int`, records as
association lists with first-match lookup (JS objects have unique keys, so
first-match lookup and in-place update agree with JS object semantics).
The host platform's CLDR plural-category selector (`Intl.PluralRules`) is
an external capability and is passed as an explicit function parameter.
-/

set_option autoImplicit false

namespace BfI18n

/-! ## JavaScript character classes and string helpers -/

/-- ECMAScript line terminators: LF, CR, LINE SEPARATOR, PARAGRAPH SEPARATOR.
A JS regex `.` (no `s` flag) matches any character except these. -/
def isLineTerm (c : Char) : Bool :=
  c = '\n' || c = '\r' || c.val = 0x2028 || c.val = 0x2029

/-- ECMAScript WhiteSpace ∪ LineTerminator: the class matched by `\s` and
trimmed by `String.prototype.trim`. -/
def isJsSpace (c : Char) : Bool :=
  c = ' ' || c = '\t' || c = '\n' || c = '\r' || c.val = 0x0B || c.val = 0x0C ||
  c.val = 0xA0 || c.val = 0x1680 ||
  (0x2000 ≤ c.val && c.val ≤ 0x200A) ||
  c.val = 0x2028 || c.val = 0x2029 || c.val = 0x202F || c.val = 0x205F ||
  c.val = 0x3000 || c.val = 0xFEFF

/-- `String.prototype.trim`: drop leading and trailing JS whitespace. -/
def jsTrimL (cs : List Char) : List Char :=
  ((cs.dropWhile isJsSpace).reverse.dropWhile isJsSpace).reverse

def jsTrim (s : String) : String :=
  String.mk (jsTrimL s.toList)

/-- JS identifier-start class `[a-zA-Z_]` used by the interpolation token
regexes (`Char.isAlpha` is exactly ASCII `[a-zA-Z]`). -/
def isIdentStart (c : Char) : Bool :=
  c.isAlpha || c = '_'

/-- JS identifier-continue class `[a-zA-Z0-9_]`. -/
def isIdentChar (c : Char) : Bool :=
  c.isAlphanum || c = '_'

/-- ASCII digit, the `\d` class. -/
def isDigitChar (c : Char) : Bool :=
  c.isDigit

/-- Value of a nonempty ASCII digit run, i.e. `parseInt(ds, 10)`. -/
def digitsToNat (ds : List Char) : Nat :=
  ds.foldl (fun n c => n * 10 + (c.toNat - '0'.toNat)) 0

/-! ## Translation values (`TranslationValue` in `schemas/translation.ts`)

`string | number | boolean | null | TranslationValue[] | { [k]: TranslationValue }`.
Numbers are modelled as `Int` (the claims only exercise integral counts). -/

inductive TValue where
  | vstr (s : String)
  | vnum (n : Int)
  | vbool (b : Bool)
  | vnull
  | varr (items : List TValue)
  | vobj (fields : List (String × TValue))

/-- First-match association-list lookup: `obj[key]` / `key in obj` on a JS
object (keys are unique in a JS object, so first match is the match). -/
def jsLookup {α : Type} : List (String × α) → String → Option α
  | [], _ => none
  | (k, v) :: rest, key => if k = key then some v else jsLookup rest key

/-- `obj[key] = value` on a JS object: replace the existing entry in place,
or append a new entry (JS insertion order). -/
def jsSet {α : Type} : List (String × α) → String → α → List (String × α)
  | [], key, value => [(key, value)]
  | (k, v) :: rest, key, value =>
    if k = key then (k, value) :: rest else (k, v) :: jsSet rest key value

@[simp] theorem jsLookup_nil {α : Type} (key : String) :
    jsLookup ([] : List (String × α)) key = none := rfl

@[simp] theorem jsLookup_cons {α : Type} (k : String) (v : α)
    (rest : List (String × α)) (key : String) :
    jsLookup ((k, v) :: rest) key = if k = key then some v else jsLookup rest key := rfl

theorem jsLookup_jsSet {α : Type} (l : List (String × α)) (k k' : String) (v : α) :
    jsLookup (jsSet l k v) k' = if k = k' then some v else jsLookup l k' := by
  induction l with
  | nil => by_cases h : k = k' <;> simp [jsSet, h]
  | cons p rest ih =>
    obtain ⟨a, b⟩ := p
    by_cases ha : a = k
    · subst ha
      by_cases h : a = k' <;> simp [jsSet, h]
    · by_cases h : a = k'
      · subst h
        have : ¬ k = a := fun hc => ha hc.symm
        simp [jsSet, ha, this]
      · simp [jsSet, ha, h, ih]

/-! ## Pluralizer (`pluralizer.ts`) -/

/-- CLDR plural categories (`schemas/translation.ts`, `PluralCategorySchema`). -/
inductive PCat where
  | zero | one | two | few | many | other
deriving DecidableEq, Repr

/-- The string key a category selects in a key-based plural map. -/
def pcKey : PCat → String
  | .zero => "zero"
  | .one => "one"
  | .two => "two"
  | .few => "few"
  | .many => "many"
  | .other => "other"

/-- `PluralizationType` (`schemas/pluralization.ts`): `'key' | 'pipe'`. -/
inductive PluralizationType where
  | key | pipe
deriving DecidableEq, Repr

/-- `Pluralizer.resolveKeyBased(translations, count)` (pluralizer.ts:32-54).
`sel` is the locale's `Intl.PluralRules.select`. -/
def resolveKeyBased (sel : Int → PCat) (translations : List (String × TValue))
    (count : Int) : Option TValue :=
  -- count=0 の場合は zero キーを優先（Rails互換）
  if count = 0 ∧ (jsLookup translations "zero").isSome then
    jsLookup translations "zero"
  else
    let category := sel count
    -- カテゴリに対応するキーがあればそれを使用
    if (jsLookup translations (pcKey category)).isSome then
      jsLookup translations (pcKey category)
    -- フォールバック: other
    else if (jsLookup translations "other").isSome then
      jsLookup translations "other"
    else
      none

/-- `[n,*]`'s upper bound: a number or `Infinity` (schemas/pluralization.ts).  -/
inductive ENum where
  | fin (n : Int)
  | inf
deriving DecidableEq, Repr

/-- `LaravelPluralRule` (schemas/pluralization.ts): optional exact value,
optional range, display text. -/
structure LaravelPluralRule where
  exact : Option Int := none
  rangeStart : Option Int := none
  rangeEnd : Option ENum := none
  text : String
deriving DecidableEq, Repr

/-- One step of the `splitByPipe` loop body (pluralizer.ts:83-96): update the
`inBracket` flag for the character just read. -/
def updateBracketFlag (inBracket : Bool) (c : Char) : Bool :=
  if c = '[' ∨ c = '{' then true
  else if c = ']' ∨ c = '}' then false
  else inBracket

/-- `Pluralizer.splitByPipe` (pluralizer.ts:78-103): split on `|` characters
outside brackets, tracked by a single boolean flag; the final segment is
pushed only if nonempty. -/
def splitByPipeAux (inBracket : Bool) (current : List Char) :
    List Char → List (List Char)
  | [] => if current = [] then [] else [current]
  | c :: cs =>
    let inB := updateBracketFlag inBracket c
    if c = '|' ∧ inB = false then
      current :: splitByPipeAux inB [] cs
    else
      splitByPipeAux inB (current ++ [c]) cs

def splitByPipeL (cs : List Char) : List (List Char) :=
  splitByPipeAux false [] cs

def splitByPipe (s : String) : List String :=
  (splitByPipeL s.toList).map String.mk

/-- The tail capture `\s*(.*)$` of the rule regexes: greedy `\s*`, then `.`
cannot cross a line terminator, so the regex matches iff the remainder
after the maximal whitespace run is line-terminator free, and that
remainder is the capture. -/
def matchSpaceRest (cs : List Char) : Option (List Char) :=
  let t := cs.dropWhile isJsSpace
  if t.all (fun c => !isLineTerm c) then some t else none

/-- `part.match(/^\{(\d+)\}\s*(.*)$/)` (pluralizer.ts:114). -/
def matchExact (cs : List Char) : Option (Nat × List Char) :=
  match cs with
  | '{' :: rest =>
    let ds := rest.takeWhile isDigitChar
    if ds = [] then none
    else
      match rest.drop ds.length with
      | '}' :: rest2 =>
        match matchSpaceRest rest2 with
        | some text => some (digitsToNat ds, text)
        | none => none
      | _ => none
  | _ => none

/-- `part.match(/^\[(\d+),(\d+|\*)\]\s*(.*)$/)` (pluralizer.ts:123). -/
def matchRange (cs : List Char) : Option (Nat × ENum × List Char) :=
  match cs with
  | '[' :: rest =>
    let ds := rest.takeWhile isDigitChar
    if ds = [] then none
    else
      match rest.drop ds.length with
      | ',' :: rest2 =>
        let after : Option (ENum × List Char) :=
          match rest2 with
          | '*' :: rest3 => some (ENum.inf, rest3)
          | _ =>
            let ds2 := rest2.takeWhile isDigitChar
            if ds2 = [] then none
            else some (ENum.fin (digitsToNat ds2), rest2.drop ds2.length)
        match after with
        | some (hi, rest3) =>
          match rest3 with
          | ']' :: rest4 =>
            match matchSpaceRest rest4 with
            | some text => some (digitsToNat ds, hi, text)
            | none => none
          | _ => none
        | none => none
      | _ => none
  | _ => none

/-- `Pluralizer.parseRule(part, index, totalParts)` (pluralizer.ts:108-144).
Every branch of the source returns a rule, so the `null` annotation is
unreachable and the `if (rule)` filter in the caller never drops anything. -/
def parseRule (part : List Char) (index totalParts : Nat) : LaravelPluralRule :=
  -- {n} 形式（完全一致）
  match matchExact part with
  | some (n, text) => { exact := some (n : Int), text := String.mk text }
  | none =>
    -- [n,m] または [n,*] 形式（範囲指定）
    match matchRange part with
    | some (lo, hi, text) =>
      { rangeStart := some (lo : Int), rangeEnd := some hi, text := String.mk text }
    | none =>
      -- 単純な形式（One|Many）
      if totalParts = 2 then
        if index = 0 then { exact := some 1, text := String.mk part }
        else { rangeStart := some 0, rangeEnd := some ENum.inf, text := String.mk part }
      else
        -- その他の場合はテキストのみ
        { text := String.mk part }

/-- Index-aware map used by `parsePipeSeparated`'s `for` loop. -/
def parseRulesAux (totalParts : Nat) : Nat → List (List Char) → List LaravelPluralRule
  | _, [] => []
  | i, p :: ps => parseRule (jsTrimL p) i totalParts :: parseRulesAux totalParts (i + 1) ps

/-- `Pluralizer.parsePipeSeparated(text)` (pluralizer.ts:60-73). -/
def parsePipeSeparatedL (cs : List Char) : List LaravelPluralRule :=
  let parts := splitByPipeL cs
  parseRulesAux parts.length 0 parts

def parsePipeSeparated (text : String) : List LaravelPluralRule :=
  parsePipeSeparatedL text.toList

/-- The per-rule test of the `resolvePipeBased` loop (pluralizer.ts:152-167):
exact match, or range containment when both bounds are present. -/
def ruleMatches (rule : LaravelPluralRule) (count : Int) : Bool :=
  (match rule.exact with
   | some e => e = count
   | none => false) ||
  (match rule.rangeStart, rule.rangeEnd with
   | some lo, some hi =>
     lo ≤ count && (match hi with | .fin h => count ≤ h | .inf => true)
   | _, _ => false)

/-- The scan of `resolvePipeBased`: first rule whose exact or range predicate
matches, in a single pass. -/
def findRuleText : List LaravelPluralRule → Int → Option String
  | [], _ => none
  | rule :: rest, count =>
    if ruleMatches rule count then some rule.text else findRuleText rest count

/-- `Pluralizer.resolvePipeBased(text, count)` (pluralizer.ts:149-171). -/
def resolvePipeBasedL (cs : List Char) (count : Int) : String :=
  let rules := parsePipeSeparatedL cs
  match findRuleText rules count with
  | some t => t
  | none =>
    -- マッチしない場合は最後のルールを返す
    match rules.getLast? with
    | some rule => rule.text
    | none => String.mk cs

def resolvePipeBased (text : String) (count : Int) : String :=
  resolvePipeBasedL text.toList count

/-- A key-based plural map over the `zero`/`one`/`other` forms, the domain of
claim C5 (`keyToPipe` reads exactly these three keys). -/
structure ZooMap where
  zero : Option String := none
  one : Option String := none
  other : Option String := none
deriving DecidableEq, Repr

/-- The record (as a JS object, insertion order zero, one, other) that the
zero/one/other map denotes. -/
def zooRecord (m : ZooMap) : List (String × String) :=
  (match m.zero with | some z => [("zero", z)] | none => []) ++
  (match m.one with | some o => [("one", o)] | none => []) ++
  (match m.other with | some t => [("other", t)] | none => [])

/-- `Pluralizer.keyToPipe(translations)` (pluralizer.ts:203-217): emit
`{0} zero`, `{1} one`, `[2,*] other` for the keys present, joined by `|`. -/
def keyToPipeL (m : ZooMap) : List Char :=
  let parts : List (List Char) :=
    (match m.zero with | some z => [('{' :: '0' :: '}' :: ' ' :: z.toList)] | none => []) ++
    (match m.one with | some o => [('{' :: '1' :: '}' :: ' ' :: o.toList)] | none => []) ++
    (match m.other with
     | some t => [('[' :: '2' :: ',' :: '*' :: ']' :: ' ' :: t.toList)]
     | none => [])
  match parts with
  | [] => []
  | p :: ps => ps.foldl (fun acc q => acc ++ '|' :: q) p

def keyToPipe (m : ZooMap) : String :=
  String.mk (keyToPipeL m)

/-- The accumulation loop of `pipeToKey` (pluralizer.ts:227-238). -/
def pipeToKeyFold : List (String × String) → List LaravelPluralRule → List (String × String)
  | acc, [] => acc
  | acc, rule :: rest =>
    let acc' :=
      if rule.exact = some 0 then jsSet acc "zero" rule.text
      else if rule.exact = some 1 then jsSet acc "one" rule.text
      else if rule.rangeStart.isSome ∧ rule.rangeEnd = some ENum.inf then
        jsSet acc "other" rule.text
      else acc
    pipeToKeyFold acc' rest

/-- `Pluralizer.pipeToKey(text)` (pluralizer.ts:222-247). Total: it reports
failure by returning `none` (`null`), never by throwing. -/
def pipeToKey (text : String) : Option (List (String × String)) :=
  let rules := parsePipeSeparatedL text.toList
  let result := pipeToKeyFold [] rules
  -- 単純な 単数|複数 形式
  let result :=
    if rules.length = 2 ∧ result = [] then
      match rules with
      | [r0, r1] => [("one", r0.text), ("other", r1.text)]
      | _ => result
    else result
  if result = [] then none else some result

/-- `Pluralizer.resolve(value, count)` (pluralizer.ts:176-198), dispatching on
the pluralization type. -/
def pluralizerResolve (sel : Int → PCat) (ptype : PluralizationType)
    (value : TValue) (count : Int) : Option TValue :=
  match ptype with
  | .key =>
    match value with
    | .vobj fields => resolveKeyBased sel fields count
    | v => some v
  | .pipe =>
    match value with
    | .vstr s => some (.vstr (resolvePipeBased s count))
    | v => some v

/-! ## Interpolator (`interpolator.ts`)

The matcher is `escapedPrefix + ([a-zA-Z_][a-zA-Z0-9_]*) + escapedSuffix`
(suffix omitted when empty), applied as a global leftmost, non-overlapping
replace.  For the two built-in affix pairs (`%{`/`}` and `:`/empty) the
suffix contains no identifier characters, so the greedy identifier run
never needs regex backtracking and the scanner below is exact. -/

/-- A JS value stored in the interpolation `values` record
(`Record<string, unknown>`). -/
inductive JsVal where
  | jstr (s : String)
  | jnum (n : Int)
  | jbool (b : Bool)
  | jnull
  | jundef
  | jarr (items : List JsVal)

/-- `String(value)` for the scalar values above (arrays join with `,`). -/
def jsValToString : JsVal → String
  | .jstr s => s
  | .jnum n => toString n
  | .jbool b => if b then "true" else "false"
  | .jnull => "null"
  | .jundef => "undefined"
  | .jarr items => String.intercalate "," (items.map fun v =>
      match v with
      | .jnull => ""
      | .jundef => ""
      | .jstr s => s
      | .jnum n => toString n
      | .jbool b => if b then "true" else "false"
      | .jarr _ => "")

/-- The replacement the `interpolate` callback produces for a present key:
`value == null ? '' : String(value)` (interpolator.ts:55). -/
def jsDisplay : JsVal → String
  | .jnull => ""
  | .jundef => ""
  | v => jsValToString v

/-- Strip a literal pattern from the front of the input. -/
def stripLit : List Char → List Char → Option (List Char)
  | [], cs => some cs
  | _ :: _, [] => none
  | p :: ps, c :: cs => if p = c then stripLit ps cs else none

/-- Greedy `[a-zA-Z_][a-zA-Z0-9_]*`: the token name and the rest. -/
def takeIdent : List Char → Option (List Char × List Char)
  | [] => none
  | c :: cs =>
    if isIdentStart c then some (c :: cs.takeWhile isIdentChar, cs.dropWhile isIdentChar)
    else none

/-- Try to match one interpolation token at the current position:
prefix, identifier, suffix. Returns the token name and the remaining input. -/
def matchTokenAt (pre suf cs : List Char) : Option (List Char × List Char) :=
  match stripLit pre cs with
  | none => none
  | some r1 =>
    match takeIdent r1 with
    | none => none
    | some (name, r2) =>
      match stripLit suf r2 with
      | none => none
      | some r3 => some (name, r3)

theorem stripLit_length {p cs r : List Char} (h : stripLit p cs = some r) :
    r.length ≤ cs.length := by
  induction p generalizing cs with
  | nil => simp [stripLit] at h; simp [h]
  | cons a ps ih =>
    cases cs with
    | nil => simp [stripLit] at h
    | cons c cs' =>
      simp only [stripLit] at h
      split at h
      · exact Nat.le_succ_of_le (ih h)
      · exact absurd h (by simp)

theorem dropWhile_length_le (p : Char → Bool) (l : List Char) :
    (l.dropWhile p).length ≤ l.length := by
  induction l with
  | nil => simp
  | cons c cs ih =>
    simp only [List.dropWhile]
    split
    · exact Nat.le_succ_of_le ih
    · simp

theorem takeIdent_length {cs name r : List Char} (h : takeIdent cs = some (name, r)) :
    r.length < cs.length := by
  cases cs with
  | nil => simp [takeIdent] at h
  | cons c cs' =>
    simp only [takeIdent] at h
    split at h
    · simp only [Option.some.injEq, Prod.mk.injEq] at h
      have := h.2
      subst this
      exact Nat.lt_succ_of_le (dropWhile_length_le _ _)
    · exact absurd h (by simp)

theorem matchTokenAt_length {pre suf cs name r : List Char}
    (h : matchTokenAt pre suf cs = some (name, r)) : r.length < cs.length := by
  unfold matchTokenAt at h
  cases h1 : stripLit pre cs with
  | none => simp [h1] at h
  | some r1 =>
    simp only [h1] at h
    cases h2 : takeIdent r1 with
    | none => simp [h2] at h
    | some nr =>
      obtain ⟨nm, r2⟩ := nr
      simp only [h2] at h
      cases h3 : stripLit suf r2 with
      | none => simp [h3] at h
      | some r3 =>
        simp only [h3, Option.some.injEq, Prod.mk.injEq] at h
        calc r.length = r3.length := by rw [h.2]
          _ ≤ r2.length := stripLit_length h3
          _ < r1.length := takeIdent_length h2
          _ ≤ cs.length := stripLit_length h1

/-- `Interpolator.interpolate(text, values)` (interpolator.ts:51-60) as a
left-to-right scan: replace a matched token by the callback's value
(present key: `value == null ? '' : String(value)`; absent key: leave
the full matched text, `prefix ++ name ++ suffix`, in place). -/
def interpAux (pre suf : List Char) (values : List (String × JsVal)) :
    List Char → List Char
  | [] => []
  | c :: rest =>
    match h : matchTokenAt pre suf (c :: rest) with
    | some (name, r3) =>
      (match jsLookup values (String.mk name) with
       | some v => (jsDisplay v).toList
       | none => pre ++ name ++ suf) ++ interpAux pre suf values r3
    | none => c :: interpAux pre suf values rest
  termination_by cs => cs.length
  decreasing_by
  · exact matchTokenAt_length h
  · simp

/-- One token-or-literal segment of the scanned text. -/
inductive Seg where
  | lit (c : Char)
  | tok (name : List Char)

/-- The tokenization underlying the matcher: the same scan as `interpAux`,
recording segments instead of substituting. -/
def tokenizeAux (pre suf : List Char) : List Char → List Seg
  | [] => []
  | c :: rest =>
    match h : matchTokenAt pre suf (c :: rest) with
    | some (name, r3) => Seg.tok name :: tokenizeAux pre suf r3
    | none => Seg.lit c :: tokenizeAux pre suf rest
  termination_by cs => cs.length
  decreasing_by
  · exact matchTokenAt_length h
  · simp

/-- The per-token replacement policy exactly as the spec states it: a matched
placeholder `name` becomes `String(values[name])` when `name` is a key of
`values`, with `null`/`undefined` rendering as the empty string; when
`name` is absent the original placeholder text is left untouched. -/
def renderSeg (pre suf : List Char) (values : List (String × JsVal)) : Seg → List Char
  | .lit c => [c]
  | .tok name =>
    match jsLookup values (String.mk name) with
    | some .jnull => []
    | some .jundef => []
    | some v => (jsValToString v).toList
    | none => pre ++ name ++ suf

/-- Spec-side interpolation: tokenize, then render each segment independently
under the claimed policy. -/
def interpolateSpecL (pre suf : List Char) (values : List (String × JsVal))
    (cs : List Char) : List Char :=
  ((tokenizeAux pre suf cs).map (renderSeg pre suf values)).flatten

/-- The Rails affixes `%{` / `}` (`RailsInterpolationDefaults`). -/
def railsPre : List Char := ['%', '{']
def railsSuf : List Char := ['}']

/-- The Laravel affixes `:` / empty (`LaravelInterpolationDefaults`). -/
def laravelPre : List Char := [':']
def laravelSuf : List Char := []

/-- `createRailsInterpolator().interpolate` on strings. -/
def railsInterpolate (text : String) (values : List (String × JsVal)) : String :=
  String.mk (interpAux railsPre railsSuf values text.toList)

/-- `createLaravelInterpolator().interpolate` on strings. -/
def laravelInterpolate (text : String) (values : List (String × JsVal)) : String :=
  String.mk (interpAux laravelPre laravelSuf values text.toList)

def railsInterpolateSpec (text : String) (values : List (String × JsVal)) : String :=
  String.mk (interpolateSpecL railsPre railsSuf values text.toList)

def laravelInterpolateSpec (text : String) (values : List (String × JsVal)) : String :=
  String.mk (interpolateSpecL laravelPre laravelSuf values text.toList)

/-- `Interpolator.extractVariables(text)` (interpolator.ts:65-80): names of
the matched tokens, first occurrence order, de-duplicated. -/
def dedupFirst (seen : List String) : List String → List String
  | [] => []
  | v :: rest =>
    if v ∈ seen then dedupFirst seen rest
    else v :: dedupFirst (seen ++ [v]) rest

def extractVariablesL (pre suf cs : List Char) : List String :=
  dedupFirst [] ((tokenizeAux pre suf cs).filterMap fun s =>
    match s with
    | .tok name => some (String.mk name)
    | .lit _ => none)

theorem interpAux_eq_spec_aux (pre suf : List Char) (values : List (String × JsVal)) :
    ∀ (n : Nat) (cs : List Char), cs.length ≤ n →
      interpAux pre suf values cs = interpolateSpecL pre suf values cs := by
  intro n
  induction n with
  | zero =>
    intro cs hlen
    have hcs : cs = [] := List.length_eq_zero.mp (Nat.le_zero.mp hlen)
    subst hcs
    simp [interpAux, interpolateSpecL, tokenizeAux]
  | succ n ih =>
    intro cs hlen
    cases cs with
    | nil => simp [interpAux, interpolateSpecL, tokenizeAux]
    | cons c rest =>
      rw [interpAux, interpolateSpecL, tokenizeAux]
      cases hm : matchTokenAt pre suf (c :: rest) with
      | some nr =>
        obtain ⟨name, r3⟩ := nr
        simp only [hm]
        have hr3 : r3.length ≤ n := by
          have hlt := matchTokenAt_length hm
          simp only [List.length_cons] at hlen hlt
          omega
        rw [ih r3 hr3]
        simp only [interpolateSpecL, List.map_cons, List.flatten_cons]
        cases hv : jsLookup values (String.mk name) with
        | none => simp [renderSeg, hv]
        | some v => cases v <;> simp [renderSeg, hv, jsDisplay]
      | none =>
        simp only [hm]
        have hr : rest.length ≤ n := by
          simp only [List.length_cons] at hlen
          omega
        rw [ih rest hr]
        simp [interpolateSpecL, renderSeg]

theorem interpAux_eq_spec (pre suf : List Char) (values : List (String × JsVal))
    (cs : List Char) :
    interpAux pre suf values cs = interpolateSpecL pre suf values cs :=
  interpAux_eq_spec_aux pre suf values cs.length cs (Nat.le_refl _)

/-! ## Translator (`translator.ts`) -/

/-- JSON.stringify for translation values (used when a resolved value is an
array or object). Control characters beyond the named escapes are not
exercised by any claim and are emitted via `\u....`. -/
def jsonEscape (s : String) : String :=
  String.mk (s.toList.flatMap fun c =>
    if c = '"' then ['\\', '"']
    else if c = '\\' then ['\\', '\\']
    else if c = '\n' then ['\\', 'n']
    else if c = '\r' then ['\\', 'r']
    else if c = '\t' then ['\\', 't']
    else if c.val = 8 then ['\\', 'b']
    else if c.val = 12 then ['\\', 'f']
    else if c.val < 32 then
      ['\\', 'u', '0', '0',
       (Nat.digitChar (c.toNat / 16)), (Nat.digitChar (c.toNat % 16))]
    else [c])

def jsonStringify : TValue → String
  | .vstr s => "\"" ++ jsonEscape s ++ "\""
  | .vnum n => toString n
  | .vbool b => if b then "true" else "false"
  | .vnull => "null"
  | .varr items =>
    "[" ++ String.intercalate "," (items.attach.map fun x => jsonStringify x.1) ++ "]"
  | .vobj fields =>
    "\x7b" ++ String.intercalate ","
      (fields.attach.map fun x =>
        "\"" ++ jsonEscape x.1.1 ++ "\":" ++ jsonStringify x.1.2) ++ "\x7d"
  termination_by v => sizeOf v
  decreasing_by
  all_goals
    first
    | (have hmem := List.sizeOf_lt_of_mem x.2
       simp at hmem ⊢
       omega)
    | (obtain ⟨⟨k, v⟩, hx⟩ := x
       have hmem := List.sizeOf_lt_of_mem hx
       simp at hmem ⊢
       omega)

/-- `String(value)` for a scalar translation value (translator.ts:234). -/
def tvalueScalarString : TValue → String
  | .vstr s => s
  | .vnum n => toString n
  | .vbool b => if b then "true" else "false"
  | .vnull => "null"
  | .varr _ => ""
  | .vobj _ => ""

/-- `TranslateOptions` (`schemas/options.ts`): `default` and `scope` are
`string | string[]`, plus `count`, `locale`, and arbitrary extra
interpolation variables. -/
structure TOptions where
  dflt : Option (String ⊕ List String) := none
  scope : Option (String ⊕ List String) := none
  count : Option Int := none
  loc : Option String := none
  extra : List (String × JsVal) := []

/-- The options object viewed as the interpolation `values` record: its own
enumerable keys in declaration order. -/
def optionsValues (o : TOptions) : List (String × JsVal) :=
  (match o.dflt with
   | none => []
   | some (.inl s) => [("default", JsVal.jstr s)]
   | some (.inr l) => [("default", JsVal.jarr (l.map JsVal.jstr))]) ++
  (match o.scope with
   | none => []
   | some (.inl s) => [("scope", JsVal.jstr s)]
   | some (.inr l) => [("scope", JsVal.jarr (l.map JsVal.jstr))]) ++
  (match o.count with
   | none => []
   | some n => [("count", JsVal.jnum n)]) ++
  (match o.loc with
   | none => []
   | some s => [("locale", JsVal.jstr s)]) ++
  o.extra

/-- `{...options, count: options.count}` (translator.ts:238-241): the spread
copy in which the `count` key is always present (as `undefined` when the
option was not given). -/
def translateValues (o : TOptions) : List (String × JsVal) :=
  optionsValues { o with count := none } ++
  [("count", match o.count with | some n => JsVal.jnum n | none => JsVal.jundef)]

/-- Configuration of a `Translator` (`TranslatorOptions`). The interpolation
affixes and pluralization type stand for the `Interpolator` / `Pluralizer`
instances; `plocale` is the locale the pluralizer is bound to.
`handler` is `missingTranslationHandler`. -/
structure TransCfg where
  translations : List (String × List (String × TValue))
  locale : String
  fallbackLocales : List String
  ipre : List Char
  isuf : List Char
  ptype : PluralizationType
  plocale : String
  handler : Option (String → String → Option String) := none

/-- `str.split(sep)` for a single-character separator: split at every
occurrence, keeping empty segments (`"".split('.')` is `[""]`). -/
def jsSplitCharAux (sep : Char) (current : List Char) : List Char → List String
  | [] => [String.mk current]
  | c :: rest =>
    if c = sep then String.mk current :: jsSplitCharAux sep [] rest
    else jsSplitCharAux sep (current ++ [c]) rest

def jsSplitChar (sep : Char) (s : String) : List String :=
  jsSplitCharAux sep [] s.toList

/-- `Translator.buildFallbackChain(locale)` (translator.ts:70-89). -/
def buildFallbackChain (fallbackLocales : List String) (locale : String) : List String :=
  let chain := [locale]
  -- 言語コードのみを追加（en-US → en）
  let chain :=
    if locale.toList.contains '-' then
      let langOnly := (jsSplitChar '-' locale).headD ""
      if langOnly ∈ chain then chain else chain ++ [langOnly]
    else chain
  -- フォールバックロケールを追加
  fallbackLocales.foldl (fun acc fb => if fb ∈ acc then acc else acc ++ [fb]) chain

/-- `Translator.getNestedValue(obj, keys)` (translator.ts:94-111): walk the
dot-path; a missing key or a non-object (or array/null) intermediate
aborts with `undefined`. -/
def getNestedValue : TValue → List String → Option TValue
  | v, [] => some v
  | .vobj fields, k :: rest =>
    match jsLookup fields k with
    | some v' => getNestedValue v' rest
    | none => none
  | _, _ :: _ => none

/-- `Translator.applyScope(key, scope)` (translator.ts:183-193); an empty
scope string is falsy in JS, so it leaves the key unchanged. -/
def applyScope (key : String) (scope : Option (String ⊕ List String)) : String :=
  match scope with
  | none => key
  | some (.inl s) => if s = "" then key else String.intercalate "." ([s] ++ [key])
  | some (.inr l) => String.intercalate "." (l ++ [key])

/-- `Translator.translateForLocale(key, locale, options)`
(translator.ts:198-244): nested lookup, optional plural resolution,
stringification of non-string values, interpolation. -/
def translateForLocale (sel : String → Int → PCat) (cfg : TransCfg)
    (key locale : String) (o : TOptions) : Option String :=
  match jsLookup cfg.translations locale with
  | none => none
  | some localeTranslations =>
    match getNestedValue (.vobj localeTranslations) (jsSplitChar '.' key) with
    | none => none
    | some value =>
      -- 複数形の処理
      let resolved : Option TValue :=
        match o.count with
        | none => some value
        | some count => pluralizerResolve (sel cfg.plocale) cfg.ptype value count
      match resolved with
      | none => none
      | some v =>
        -- 文字列以外の値はJSON文字列化
        match v with
        | .vstr s =>
          -- 補間処理
          some (String.mk (interpAux cfg.ipre cfg.isuf (translateValues o) s.toList))
        | .varr items => some (jsonStringify (.varr items))
        | .vobj fields => some (jsonStringify (.vobj fields))
        | other => some (tvalueScalarString other)

/-- First hit of the fallback-chain loop (translator.ts:148-153). -/
def chainFirst (f : String → Option String) : List String → Option String
  | [] => none
  | loc :: rest =>
    match f loc with
    | some r => some r
    | none => chainFirst f rest

/-- `Translator.translate(key, options)` (translator.ts:140-178). The only
runtime failure is `options.default === []` on a missed key: then
`options.default[0]` is `undefined` and `interpolate` throws a
`TypeError`; this is modelled as `Except.error ()`. -/
def translate (sel : String → Int → PCat) (cfg : TransCfg) (key : String)
    (o : TOptions) : Except Unit String :=
  let locale := o.loc.getD cfg.locale
  let chain := buildFallbackChain cfg.fallbackLocales locale
  -- スコープを適用
  let fullKey := applyScope key o.scope
  -- フォールバックチェーンで探索
  match chainFirst (fun loc => translateForLocale sel cfg fullKey loc o) chain with
  | some result => .ok result
  | none =>
    -- デフォルト値がある場合
    match o.dflt with
    | some (.inl s) =>
      .ok (String.mk (interpAux cfg.ipre cfg.isuf (optionsValues o) s.toList))
    | some (.inr (d :: _)) =>
      .ok (String.mk (interpAux cfg.ipre cfg.isuf (optionsValues o) d.toList))
    | some (.inr []) => .error ()
    | none =>
      -- missingTranslationHandler がある場合
      match cfg.handler with
      | some h =>
        match h fullKey locale with
        | some result => .ok result
        | none => .ok fullKey
      | none => .ok fullKey

/-! ## Deep merge (`Translator.addTranslations` / `deepMerge`,
translator.ts:249-287) -/

/-- `Translator.deepMerge(target, source)` (translator.ts:262-286): iterate
the source keys in order; when both sides hold a plain mapping (non-array
object), merge recursively, otherwise the source value overwrites. -/
def deepMergeF (tf : List (String × TValue)) (sf : List (String × TValue)) :
    List (String × TValue) :=
  match sf with
  | [] => tf
  | (k, .vobj ssub) :: rest =>
    -- source value is a plain mapping: merge recursively when the target
    -- value is one too, otherwise overwrite
    deepMergeF
      (jsSet tf k
        (match jsLookup tf k with
         | some (.vobj tsub) => .vobj (deepMergeF tsub ssub)
         | _ => .vobj ssub))
      rest
  | (k, sv) :: rest =>
    -- source value is not a plain mapping: overwrite
    deepMergeF (jsSet tf k sv) rest
  termination_by sizeOf sf
  decreasing_by
  all_goals simp <;> omega

/-- `Translator.addTranslations(locale, newTranslations)`
(translator.ts:249-257): create the locale's mapping if absent, then
deep-merge into it. -/
def addTranslationsT (tr : List (String × List (String × TValue)))
    (locale : String) (newTranslations : List (String × TValue)) :
    List (String × List (String × TValue)) :=
  let cur := (jsLookup tr locale).getD []
  jsSet tr locale (deepMergeF cur newTranslations)

/-- Resolution of a dot-path in one locale of a translation tree (the lookup
`translate`/`exists` perform, without pluralization or interpolation). -/
def resolveIn (tr : List (String × List (String × TValue)))
    (locale : String) (path : List String) : Option TValue :=
  match jsLookup tr locale with
  | none => none
  | some fields => getNestedValue (.vobj fields) path

/-! ## I18n facade (`i18n.ts`) -/

/-- Listener invocation of `notifyChange` (i18n.ts:282-286): call each
registered listener, in registration order; the trace lists the listeners
in the order invoked. -/
def fanOut : List Nat → List Nat
  | [] => []
  | l :: ls => l :: fanOut ls

/-- The mutable state of an `I18n` instance that the claims exercise:
current locale, the translator's locale, the pluralizer's bound locale,
the translation tree, the registered change listeners (in registration
order), and the tracked missing keys. -/
structure I18nState where
  currentLocale : String
  translatorLocale : String
  pluralizerLocale : String
  translations : List (String × List (String × TValue))
  listeners : List Nat
  missingKeys : List String

/-- `I18n.onChange(callback)` (i18n.ts:272-277): `Set.add` — appended unless
already registered. -/
def onChangeI (st : I18nState) (l : Nat) : I18nState :=
  if l ∈ st.listeners then st else { st with listeners := st.listeners ++ [l] }

/-- The `locale` setter (i18n.ts:200-216): reject empty (falsy) and
whitespace-only strings with an exception; otherwise trim, and if the
trimmed locale differs from the current one, update the state, rebind the
translator and pluralizer, and notify every listener. Returns the new
state and the listener-invocation trace. -/
def setLocaleI (st : I18nState) (newLocale : String) :
    Except String (I18nState × List Nat) :=
  if newLocale = "" then .error "Locale must be a non-empty string"
  else
    let trimmed := jsTrim newLocale
    if trimmed = "" then .error "Locale must be a non-empty string"
    else if st.currentLocale ≠ trimmed then
      .ok ({ st with
              currentLocale := trimmed
              translatorLocale := trimmed
              pluralizerLocale := trimmed },
           fanOut st.listeners)
    else .ok (st, [])

/-- The caller-observed state after an assignment to the `locale` setter: an
exception leaves the instance untouched. -/
def trySetLocaleI (st : I18nState) (newLocale : String) : I18nState :=
  match setLocaleI st newLocale with
  | .ok (st', _) => st'
  | .error _ => st

/-- `I18n.addTranslations(locale, translations)` (i18n.ts:264-267): merge,
then `notifyChange()` unconditionally. -/
def addTranslationsI (st : I18nState) (locale : String)
    (newTranslations : List (String × TValue)) : I18nState × List Nat :=
  ({ st with translations := addTranslationsT st.translations locale newTranslations },
   fanOut st.listeners)

/-! ## CompatibilityChecker (`schemas/translation.ts`, lines 85-282) -/

/-- A compatibility warning or error (`CompatibilityWarning` /
`CompatibilityError` share this shape). `itype` is the `type` field. -/
structure Issue where
  key : String
  itype : String
  message : String
  suggestion : Option String := none
deriving DecidableEq, Repr

/-- Warnings and errors accumulated by the checker, in traversal order. -/
abbrev Issues := List Issue × List Issue

def icat (a b : Issues) : Issues := (a.1 ++ b.1, a.2 ++ b.2)

/-- `/^[a-zA-Z_][a-zA-Z0-9_]*$/.test(variable)` (translation.ts:184). -/
def validLaravelIdent (v : String) : Bool :=
  match v.toList with
  | [] => false
  | c :: rest => isIdentStart c && rest.all isIdentChar

/-- `CompatibilityChecker.checkInterpolation` (translation.ts:168-193):
extract the variables under the source mode's matcher and flag any name
that is not a valid Laravel identifier when converting to laravel.
Warning-only: the `_errors` parameter is never touched. -/
def checkInterpolation (value : String) (fromMode toMode : String) (key : String) :
    Issues :=
  let pre := if fromMode = "rails" then railsPre else laravelPre
  let suf := if fromMode = "rails" then railsSuf else laravelSuf
  let vars := extractVariablesL pre suf value.toList
  (vars.filterMap fun vName =>
    if toMode = "laravel" ∧ validLaravelIdent vName = false then
      some { key := key
             itype := "invalid_variable_name"
             message := "Variable name \"" ++ vName ++
               "\" may not be valid in Laravel mode"
             suggestion := some "Consider using alphanumeric variable names only" }
    else none,
   [])

/-- Does `/\[\d+,(\d+|\*)\]/` match at the head of the input? -/
def rangeTokenAt (cs : List Char) : Bool :=
  match cs with
  | '[' :: rest =>
    let ds := rest.takeWhile isDigitChar
    if ds = [] then false
    else
      match rest.drop ds.length with
      | ',' :: rest2 =>
        (match rest2 with
         | '*' :: rest3 =>
           (match rest3 with
            | ']' :: _ => true
            | _ => false)
         | _ =>
           let ds2 := rest2.takeWhile isDigitChar
           if ds2 = [] then false
           else
             match rest2.drop ds2.length with
             | ']' :: _ => true
             | _ => false)
      | _ => false
  | _ => false

/-- `/\[\d+,(\d+|\*)\]/.test(value)` (translation.ts:205): an unanchored
search succeeds iff the pattern matches at some position. -/
def hasRangePattern : List Char → Bool
  | [] => false
  | c :: rest => rangeTokenAt (c :: rest) || hasRangePattern rest

/-- One match of `/\{(\d+)\}/` at the head of the input: the number and the
rest of the input after the match. -/
def exactTokenAt (cs : List Char) : Option (Nat × List Char) :=
  match cs with
  | [] => none
  | c :: rest =>
    if c = '{' then
      let ds := rest.takeWhile isDigitChar
      if ds = [] then none
      else if (rest.drop ds.length).head? = some '}' then
        some (digitsToNat ds, (rest.drop ds.length).tail)
      else none
    else none

theorem exactTokenAt_length {cs : List Char} {n : Nat} {r : List Char}
    (h : exactTokenAt cs = some (n, r)) : r.length < cs.length := by
  unfold exactTokenAt at h
  cases cs with
  | nil => simp at h
  | cons c rest =>
    simp only at h
    split at h
    · split at h
      · simp at h
      · split at h
        · rename_i hhead
          simp only [Option.some.injEq, Prod.mk.injEq] at h
          have hr : r = (rest.drop (rest.takeWhile isDigitChar).length).tail := h.2.symm
          subst hr
          have hne : rest.drop (rest.takeWhile isDigitChar).length ≠ [] := by
            intro hnil
            rw [hnil] at hhead
            simp at hhead
          have h1 : (rest.drop (rest.takeWhile isDigitChar).length).tail.length =
              (rest.drop (rest.takeWhile isDigitChar).length).length - 1 :=
            List.length_tail _
          have h3 : 0 < (rest.drop (rest.takeWhile isDigitChar).length).length :=
            List.length_pos.mpr hne
          have h2 : (rest.drop (rest.takeWhile isDigitChar).length).length ≤ rest.length := by
            simp [List.length_drop]
          simp only [List.length_cons]
          omega
        · simp at h
    · simp at h

/-- `value.match(/\{(\d+)\}/g)` (translation.ts:216): the numbers of all
leftmost, non-overlapping exact-match tokens. -/
def scanExacts : List Char → List Nat
  | [] => []
  | c :: rest =>
    match h : exactTokenAt (c :: rest) with
    | some (n, r2) => n :: scanExacts r2
    | none => scanExacts rest
  termination_by cs => cs.length
  decreasing_by
  · exact exactTokenAt_length h
  · simp

/-- `CompatibilityChecker.checkLaravelPluralString` (translation.ts:195-242).
Warnings for range syntax and exact markers above 2; the final
`try { Pluralizer.pipeToKey(value) } catch { errors.push(...) }` never
appends: `pipeToKey` reports failure by returning `null`, it cannot
throw, so the `catch` body is unreachable and the error list stays
unchanged. -/
def checkLaravelPluralString (value : String) (toMode : String) (key : String) :
    Issues :=
  if toMode ≠ "rails" then ([], [])
  else
    let rangeWarns : List Issue :=
      if hasRangePattern value.toList then
        [{ key := key
           itype := "unsupported_range_plural"
           message := "Range-based plural syntax \"[n,m]\" will be converted to nearest Rails plural form"
           suggestion := some "Review the converted plural forms for accuracy" }]
      else []
    let exactWarns : List Issue :=
      (scanExacts value.toList).filterMap fun num =>
        if num > 2 then
          some { key := key
                 itype := "unsupported_plural_form"
                 message := "Exact match \"" ++ ('{'.toString ++ toString num ++ '}'.toString) ++
                   "\" has no direct equivalent in Rails"
                 suggestion := some "This will be mapped to \"other\" form in Rails" }
        else none
    -- try \x7b Pluralizer.pipeToKey(value) \x7d catch \x7b push error \x7d:
    -- pipeToKey is total, so no exception and no error is ever pushed.
    let _ := pipeToKey value
    (rangeWarns ++ exactWarns, [])

/-- `CompatibilityChecker.checkStringValue` (translation.ts:151-166). -/
def checkStringValue (value : String) (fromMode toMode : String) (key : String) :
    Issues :=
  icat (checkInterpolation value fromMode toMode key)
    (if fromMode = "laravel" ∧ value.toList.contains '|' then
      checkLaravelPluralString value toMode key
     else ([], []))

/-- `CompatibilityChecker.isRailsPluralObject` (translation.ts:145-149). -/
def isRailsPluralObject (fields : List (String × TValue)) : Bool :=
  !fields.isEmpty &&
  fields.all fun kv => ["zero", "one", "two", "few", "many", "other"].contains kv.1

/-- Is the value JS `null`? -/
def isNullT : TValue → Bool
  | .vnull => true
  | _ => false

/-- JS `ToString` of a translation value (what `RegExp.exec` applies to a
non-string argument when `checkPluralObject` feeds a plural-form value to
`checkInterpolation`). -/
def tvalueJsString : TValue → String
  | .vstr s => s
  | .vnum n => toString n
  | .vbool b => if b then "true" else "false"
  | .vnull => "null"
  | .varr items =>
    String.intercalate "," (items.attach.map fun x =>
      if isNullT x.1 then "" else tvalueJsString x.1)
  | .vobj _ => "[object Object]"
  termination_by v => sizeOf v
  decreasing_by
  all_goals
    have hmem := List.sizeOf_lt_of_mem x.2
    simp at hmem ⊢
    omega

/-- `CompatibilityChecker.checkPluralObject` (translation.ts:244-270):
one warning if a `two` or `few` form is present, then the interpolation
check on every form's (string-coerced) text. Warning-only. -/
def checkPluralObject (fields : List (String × TValue)) (fromMode toMode : String)
    (key : String) : Issues :=
  if ¬(fromMode = "rails" ∧ toMode = "laravel") then ([], [])
  else
    let twoFewWarns : List Issue :=
      if (fields.map Prod.fst).contains "two" || (fields.map Prod.fst).contains "few" then
        [{ key := key
           itype := "unsupported_plural_form"
           message := "Plural forms \"two\" and \"few\" will be approximated in Laravel format"
           suggestion := some "Laravel uses simpler plural rules; review the output" }]
      else []
    (twoFewWarns ++
      (fields.map fun kv =>
        (checkInterpolation (tvalueJsString kv.2) fromMode toMode key).1).flatten,
     [])

def joinKey (prefixKey k : String) : String :=
  if prefixKey = "" then k else prefixKey ++ "." ++ k

mutual

/-- Dispatch of the `checkTranslations` loop body (translation.ts:114-142)
for a single value: strings via `checkStringValue`; plural-shaped objects
via `checkPluralObject`; other objects recursively. An array is a
`typeof value === 'object'` value whose enumerable keys are its indices,
so the walker recurses into it like an object. Numbers, booleans and
`null` are skipped. -/
def checkVal (fromMode toMode fullKey : String) : TValue → Issues
  | .vstr s => checkStringValue s fromMode toMode fullKey
  | .vobj fields =>
    if isRailsPluralObject fields then checkPluralObject fields fromMode toMode fullKey
    else checkFields fromMode toMode fullKey fields
  | .varr items => checkArr fromMode toMode fullKey 0 items
  | _ => ([], [])
  termination_by v => sizeOf v

/-- `CompatibilityChecker.checkTranslations` (translation.ts:106-143) over
the entries of an object, in insertion order. -/
def checkFields (fromMode toMode prefixKey : String) :
    List (String × TValue) → Issues
  | [] => ([], [])
  | (k, v) :: rest =>
    icat (checkVal fromMode toMode (joinKey prefixKey k) v)
      (checkFields fromMode toMode prefixKey rest)
  termination_by fields => sizeOf fields

/-- The walk over an array's index/value entries. -/
def checkArr (fromMode toMode prefixKey : String) (i : Nat) : List TValue → Issues
  | [] => ([], [])
  | v :: rest =>
    icat (checkVal fromMode toMode (joinKey prefixKey (toString i)) v)
      (checkArr fromMode toMode prefixKey (i + 1) rest)
  termination_by items => sizeOf items

end

/-- `CompatibilityReport` (`schemas/compatibility.ts`). -/
structure CompatReport where
  compatible : Bool
  warnings : List Issue
  errors : List Issue
deriving DecidableEq, Repr

/-- `CompatibilityChecker.check` / `checkCompatibility` (translation.ts:89-104,
276-282): walk the tree, then report `compatible := errors.length == 0`. -/
def checkCompatibilityE (translations : List (String × TValue))
    (fromMode toMode : String) : CompatReport :=
  let issues := checkFields fromMode toMode "" translations
  { compatible := issues.2.isEmpty
    warnings := issues.1
    errors := issues.2 }

/-! ## Claim-side specification definitions -/

/-- Claim C6's reading of the split: a bracket *depth* counter (any opener
increments, any closer decrements), splitting at pipes at depth zero,
keeping every segment. -/
def depthStep (d : Nat) (c : Char) : Nat :=
  if c = '[' ∨ c = '{' then d + 1
  else if c = ']' ∨ c = '}' then d - 1
  else d

def depthSplitAux (d : Nat) (current : List Char) : List Char → List (List Char)
  | [] => [current]
  | c :: cs =>
    let d' := depthStep d c
    if c = '|' ∧ d' = 0 then current :: depthSplitAux d' [] cs
    else depthSplitAux d' (current ++ [c]) cs

def claimDepthSplit (cs : List Char) : List (List Char) :=
  depthSplitAux 0 [] cs

/-- Amended C6, spec side: the raw single-boolean-flag split, keeping every
segment (so a trailing pipe yields a trailing empty segment). -/
def rawFlagSplit (b : Bool) : List Char → List (List Char)
  | [] => [[]]
  | c :: cs =>
    let b' := updateBracketFlag b c
    if c = '|' ∧ b' = false then [] :: rawFlagSplit b' cs
    else
      match rawFlagSplit b' cs with
      | [] => [[c]]
      | s :: ss => (c :: s) :: ss

/-- Drop a trailing empty segment (the source pushes the final segment only
when nonempty). -/
def dropTrailingEmpty (l : List (List Char)) : List (List Char) :=
  match l.getLast? with
  | some [] => l.dropLast
  | _ => l

/-- Amended C6, spec side: boolean-flag split with the trailing empty segment
dropped. -/
def specFlagSplit (cs : List Char) : List (List Char) :=
  dropTrailingEmpty (rawFlagSplit false cs)

/-! ## Helper lemmas -/

theorem fanOut_eq (l : List Nat) : fanOut l = l := by
  induction l with
  | nil => rfl
  | cons x xs ih => simp [fanOut, ih]

theorem findRuleText_eq_find? (rules : List LaravelPluralRule) (count : Int) :
    findRuleText rules count =
      (rules.find? fun r => ruleMatches r count).map LaravelPluralRule.text := by
  induction rules with
  | nil => rfl
  | cons r rest ih =>
    by_cases hm : ruleMatches r count <;>
      simp [findRuleText, List.find?_cons, hm, ih]

theorem mk_eq_empty_iff (l : List Char) : String.mk l = "" ↔ l = [] := by
  constructor
  · intro h
    have : (String.mk l).data = ("" : String).data := by rw [h]
    simpa using this
  · intro h; subst h; rfl

theorem jsTrimL_nil_iff (cs : List Char) :
    jsTrimL cs = [] ↔ ∀ c ∈ cs, isJsSpace c := by
  unfold jsTrimL
  rw [List.reverse_eq_nil_iff, List.dropWhile_eq_nil_iff]
  constructor
  · intro h c hc
    rcases List.mem_append.mp ((List.takeWhile_append_dropWhile (p := isJsSpace) (l := cs)) ▸ hc) with
      hc1 | hc2
    · exact List.mem_takeWhile_imp hc1
    · exact h c (List.mem_reverse.mpr hc2)
  · intro h c hc
    exact h c (List.dropWhile_sublist isJsSpace |>.mem (List.mem_reverse.mp hc))

/-! ## Claim theorems -/

/-- C1, counterexample: the spec claims exact rules take priority over earlier
range rules ("first exact match, else first range match").  On
`"[0,5] Range|{3} Three"` with count 3 the first parsed rule is a range
rule containing 3 and the second is the exact rule for 3; the claim
demands `"Three"`, but the single left-to-right pass of
`resolvePipeBased` returns `"Range"`. -/
theorem C1_counterexample :
    parsePipeSeparated "[0,5] Range|{3} Three" =
      [{ rangeStart := some 0, rangeEnd := some (ENum.fin 5), text := "Range" },
       { exact := some 3, text := "Three" }] ∧
    resolvePipeBased "[0,5] Range|{3} Three" 3 = "Range" ∧
    "Range" ≠ "Three" := by
  refine ⟨by decide, by decide, by decide⟩

/-- C1, amended: `resolvePipeBased(text, count)` scans the parsed rules once,
in order, and returns the text of the first rule matching `count` either
by exact equality or by range containment (whichever rule comes first);
if no rule matches, it returns the last parsed rule's text. -/
theorem C1_resolvePipeBased_amended (text : String) (count : Int)
    (h : parsePipeSeparated text ≠ []) :
    resolvePipeBased text count =
      match (parsePipeSeparated text).find? (fun r => ruleMatches r count) with
      | some r => r.text
      | none => ((parsePipeSeparated text).getLast h).text := by
  simp only [resolvePipeBased, resolvePipeBasedL, parsePipeSeparated] at h ⊢
  rw [findRuleText_eq_find?]
  cases hf : (parsePipeSeparatedL text.toList).find? (fun r => ruleMatches r count) with
  | some r => simp
  | none =>
    simp only [Option.map_none']
    rw [List.getLast?_eq_getLast _ h]

/-- C1, witness for the amended theorem at `"a|b"` with count `5`: the second
rule (the open range of the two-segment shorthand) is the first match. -/
theorem C1_resolvePipeBased_amended_witness :
    parsePipeSeparated "a|b" ≠ [] ∧
    resolvePipeBased "a|b" 5 =
      (match (parsePipeSeparated "a|b").find? (fun r => ruleMatches r 5) with
       | some r => r.text
       | none => ((parsePipeSeparated "a|b").getLast (by decide)).text) :=
  ⟨by decide, C1_resolvePipeBased_amended "a|b" 5 (by decide)⟩

/-- C2, code-bug evidence: `pipeToKey "|"` fails to parse (it returns `null`),
so the claim requires `compatible = false` with one error; but `pipeToKey`
signals failure by its return value and never throws, the checker's only
`errors.push` sits in a `catch` that can never run, and the report comes
back `compatible = true` with no errors and no warnings. -/
theorem C2_checker_error_path_dead :
    pipeToKey "|" = none ∧
    checkCompatibilityE [("a", TValue.vstr "|")] "laravel" "rails" =
      { compatible := true, warnings := [], errors := [] } := by
  constructor
  · decide
  · simp [checkCompatibilityE, checkFields, checkVal, checkStringValue, checkInterpolation,
      checkLaravelPluralString, icat, extractVariablesL, tokenizeAux, matchTokenAt,
      stripLit, laravelPre, laravelSuf, joinKey, dedupFirst, hasRangePattern, rangeTokenAt,
      scanExacts, exactTokenAt]

/-- C3: `resolveKeyBased(map, count)` returns `map.zero` when `count == 0` and
`zero` is a key of `map`, regardless of the locale's plural-category
answer; otherwise `map[c]` for the selector's category `c` when that key
is present; otherwise `map.other` when present; otherwise `undefined`. -/
theorem C3_resolveKeyBased_confirmed (sel : Int → PCat)
    (m : List (String × TValue)) (count : Int) :
    (count = 0 → (jsLookup m "zero").isSome = true →
      resolveKeyBased sel m count = jsLookup m "zero") ∧
    (¬(count = 0 ∧ (jsLookup m "zero").isSome = true) →
      (jsLookup m (pcKey (sel count))).isSome = true →
      resolveKeyBased sel m count = jsLookup m (pcKey (sel count))) ∧
    (¬(count = 0 ∧ (jsLookup m "zero").isSome = true) →
      (jsLookup m (pcKey (sel count))).isSome = false →
      (jsLookup m "other").isSome = true →
      resolveKeyBased sel m count = jsLookup m "other") ∧
    (¬(count = 0 ∧ (jsLookup m "zero").isSome = true) →
      (jsLookup m (pcKey (sel count))).isSome = false →
      (jsLookup m "other").isSome = false →
      resolveKeyBased sel m count = none) := by
  refine ⟨?_, ?_, ?_, ?_⟩
  · intro h0 hz
    simp [resolveKeyBased, h0, hz]
  · intro hnz hcat
    simp [resolveKeyBased, hnz, hcat]
  · intro hnz hcat hoth
    simp [resolveKeyBased, hnz, hcat, hoth]
  · intro hnz hcat hoth
    simp [resolveKeyBased, hnz, hcat, hoth]

/-- C3, witness: with the English-like selector (category `one` at 1, `other`
elsewhere) on `{zero: "Z", one: "O", other: "M"}`, counts 0, 1 and 5 hit
the three return points. -/
theorem C3_resolveKeyBased_witness :
    resolveKeyBased (fun c => if c = 1 then PCat.one else PCat.other)
      [("zero", TValue.vstr "Z"), ("one", TValue.vstr "O"), ("other", TValue.vstr "M")] 0 =
      some (TValue.vstr "Z") ∧
    resolveKeyBased (fun c => if c = 1 then PCat.one else PCat.other)
      [("zero", TValue.vstr "Z"), ("one", TValue.vstr "O"), ("other", TValue.vstr "M")] 1 =
      some (TValue.vstr "O") ∧
    resolveKeyBased (fun c => if c = 1 then PCat.one else PCat.other)
      [("zero", TValue.vstr "Z"), ("one", TValue.vstr "O"), ("other", TValue.vstr "M")] 5 =
      some (TValue.vstr "M") := by
  refine ⟨?_, ?_, ?_⟩
  · have h := (C3_resolveKeyBased_confirmed
      (fun c => if c = 1 then PCat.one else PCat.other)
      [("zero", TValue.vstr "Z"), ("one", TValue.vstr "O"), ("other", TValue.vstr "M")] 0).1
    rw [h rfl rfl]; rfl
  · have h := (C3_resolveKeyBased_confirmed
      (fun c => if c = 1 then PCat.one else PCat.other)
      [("zero", TValue.vstr "Z"), ("one", TValue.vstr "O"), ("other", TValue.vstr "M")] 1).2.1
    rw [h (by simp) (by rfl)]; rfl
  · have h := (C3_resolveKeyBased_confirmed
      (fun c => if c = 1 then PCat.one else PCat.other)
      [("zero", TValue.vstr "Z"), ("one", TValue.vstr "O"), ("other", TValue.vstr "M")] 5).2.1
    rw [h (by simp) (by rfl)]; rfl

/-- C8: for the two built-in interpolators, `interpolate(text, values)` equals
the per-token policy the spec states: each matched placeholder is replaced
by `String(values[name])` when `name` is a key of `values` (with
`null`/`undefined` rendering as the empty string), and a placeholder whose
name is absent from `values` is left untouched in the output. -/
theorem C8_interpolate_policy_confirmed (text : String)
    (values : List (String × JsVal)) :
    railsInterpolate text values = railsInterpolateSpec text values ∧
    laravelInterpolate text values = laravelInterpolateSpec text values :=
  ⟨congrArg String.mk (interpAux_eq_spec railsPre railsSuf values text.toList),
   congrArg String.mk (interpAux_eq_spec laravelPre laravelSuf values text.toList)⟩

theorem rawFlagSplit_ne_nil (cs : List Char) : ∀ b, rawFlagSplit b cs ≠ [] := by
  induction cs with
  | nil => intro b; simp [rawFlagSplit]
  | cons c cs ih =>
    intro b
    simp only [rawFlagSplit]
    split
    · simp
    · cases hr : rawFlagSplit (updateBracketFlag b c) cs <;> simp [hr]

theorem dropTrailingEmpty_cons (x : List Char) (l : List (List Char)) (h : l ≠ []) :
    dropTrailingEmpty (x :: l) = x :: dropTrailingEmpty l := by
  cases l with
  | nil => exact absurd rfl h
  | cons y ys =>
    unfold dropTrailingEmpty
    rw [List.getLast?_cons_cons]
    cases hgl : (y :: ys).getLast? with
    | none => simp at hgl
    | some seg =>
      cases seg with
      | nil => simp
      | cons a as => simp

theorem splitByPipeAux_eq_raw (cs : List Char) : ∀ b cur,
    splitByPipeAux b cur cs =
      dropTrailingEmpty ((cur ++ (rawFlagSplit b cs).headD []) :: (rawFlagSplit b cs).tail) := by
  induction cs with
  | nil =>
    intro b cur
    by_cases hcur : cur = [] <;>
      simp [splitByPipeAux, rawFlagSplit, dropTrailingEmpty, hcur]
  | cons c cs ih =>
    intro b cur
    simp only [splitByPipeAux, rawFlagSplit]
    have hne := rawFlagSplit_ne_nil cs (updateBracketFlag b c)
    split
    · rw [ih]
      cases hr : rawFlagSplit (updateBracketFlag b c) cs with
      | nil => exact absurd hr hne
      | cons s ss =>
        simp only [List.append_nil, List.nil_append, List.headD_cons, List.tail_cons]
        rw [dropTrailingEmpty_cons cur (s :: ss) (by simp)]
    · rw [ih]
      cases hr : rawFlagSplit (updateBracketFlag b c) cs with
      | nil => exact absurd hr hne
      | cons s ss =>
        simp [List.append_assoc]

/-- C6, counterexample: the claim describes the split as bracket-*depth*
aware.  The source tracks a single boolean flag, so the first `]` of
`"[[a]|b]"` clears it although the outer `[` is still open: the code
splits at the nested pipe (two segments, two rules) where the
depth-aware split of the claim keeps one segment. -/
theorem C6_counterexample :
    splitByPipe "[[a]|b]" = ["[[a]", "b]"] ∧
    claimDepthSplit "[[a]|b]".toList = ["[[a]|b]".toList] ∧
    (parsePipeSeparated "[[a]|b]").length = 2 := by
  refine ⟨by decide, by decide, by decide⟩

/-- C6, amended: `parsePipeSeparated` splits at the `|` characters at which a
single boolean in-bracket flag is clear — any `[` or `{` sets the flag,
any `]` or `}` clears it, with no depth counting and no bracket-type
matching — drops a trailing empty segment, and yields one parsed rule per
trimmed segment in segment order. -/
theorem C6_splitByPipe_amended (text : String) :
    splitByPipe text = (specFlagSplit text.toList).map String.mk ∧
    parsePipeSeparated text =
      parseRulesAux (specFlagSplit text.toList).length 0 (specFlagSplit text.toList) := by
  have hsplit : splitByPipeL text.toList = specFlagSplit text.toList := by
    unfold splitByPipeL specFlagSplit
    rw [splitByPipeAux_eq_raw]
    cases hr : rawFlagSplit false text.toList with
    | nil => exact absurd hr (rawFlagSplit_ne_nil text.toList false)
    | cons s ss => simp
  constructor
  · unfold splitByPipe
    rw [hsplit]
  · unfold parsePipeSeparated parsePipeSeparatedL
    rw [hsplit]

/-- C7: assigning the `I18n` locale setter an empty or whitespace-only string
throws and leaves the state unchanged; any other string is trimmed before
use, so the stored locale after assigning `"  ja  "` is exactly `"ja"`. -/
theorem C7_locale_setter_confirmed (st : I18nState) (s : String) :
    (s.toList.all isJsSpace = true →
      (∃ e, setLocaleI st s = .error e) ∧ trySetLocaleI st s = st) ∧
    (s.toList.all isJsSpace = false →
      ∃ st' trace, setLocaleI st s = .ok (st', trace) ∧ st'.currentLocale = jsTrim s) := by
  constructor
  · intro hws
    have hnil : jsTrimL s.toList = [] :=
      (jsTrimL_nil_iff s.toList).mpr (fun c hc => List.all_eq_true.mp hws c hc)
    have htrim : jsTrim s = "" := by
      show String.mk (jsTrimL s.toList) = ""
      rw [hnil]
    by_cases hs : s = ""
    · subst hs
      exact ⟨⟨"Locale must be a non-empty string", rfl⟩, rfl⟩
    · refine ⟨⟨"Locale must be a non-empty string", ?_⟩, ?_⟩
      · simp [setLocaleI, hs, htrim]
      · simp [trySetLocaleI, setLocaleI, hs, htrim]
  · intro hws
    obtain ⟨c, hc, hnc⟩ := List.all_eq_false.mp hws
    have hs : s ≠ "" := by
      intro h
      subst h
      simp at hc
    have hnil : jsTrimL s.toList ≠ [] := by
      intro h
      exact hnc ((jsTrimL_nil_iff s.toList).mp h c hc)
    have htrim : jsTrim s ≠ "" := by
      intro h
      have h' : String.mk (jsTrimL s.toList) = "" := h
      exact hnil ((mk_eq_empty_iff _).mp h')
    by_cases hchange : st.currentLocale ≠ jsTrim s
    · refine ⟨{ st with
          currentLocale := jsTrim s
          translatorLocale := jsTrim s
          pluralizerLocale := jsTrim s }, fanOut st.listeners, ?_, rfl⟩
      simp [setLocaleI, hs, htrim, hchange]
    · push_neg at hchange
      refine ⟨st, [], ?_, hchange⟩
      simp [setLocaleI, hs, htrim, hchange]

/-- C7, witness: `"   "` is rejected leaving the state unchanged, and
assigning `"  ja  "` stores exactly `"ja"`. -/
theorem C7_locale_setter_witness :
    ((∃ e, setLocaleI ⟨"en", "en", "en", [], [], []⟩ "   " = .error e) ∧
      trySetLocaleI ⟨"en", "en", "en", [], [], []⟩ "   " = ⟨"en", "en", "en", [], [], []⟩) ∧
    (∃ st' trace, setLocaleI ⟨"en", "en", "en", [], [], []⟩ "  ja  " = .ok (st', trace) ∧
      st'.currentLocale = jsTrim "  ja  ") ∧
    jsTrim "  ja  " = "ja" :=
  ⟨(C7_locale_setter_confirmed ⟨"en", "en", "en", [], [], []⟩ "   ").1 (by decide),
   (C7_locale_setter_confirmed ⟨"en", "en", "en", [], [], []⟩ "  ja  ").2 (by decide),
   by decide⟩

/-- C10: `I18n.addTranslations` always ends in `notifyChange()`: after the
merge it synchronously invokes exactly the registered listeners, once
each, in registration order — unconditionally, whatever the merge did to
the tree (the notification is not guarded by any change detection). -/
theorem C10_addTranslations_notifies_confirmed (st : I18nState) (locale : String)
    (newTranslations : List (String × TValue)) :
    (addTranslationsI st locale newTranslations).2 = st.listeners := by
  show fanOut st.listeners = st.listeners
  exact fanOut_eq st.listeners

end BfI18n

namespace BfI18n

/-! ## Deep-merge preservation (claim C9) -/


/-- Amended C9's no-overwrite condition: at every level, whenever the partial
and the existing mapping share a key whose existing value is a plain
mapping, the partial's value at that key is also a plain mapping (and the
partial's keys are unique, as the keys of a JS object are). -/
def mergeSafe (tf sf : List (String × TValue)) : Bool :=
  match sf with
  | [] => true
  | (k, .vobj ssub) :: rest =>
    (match jsLookup tf k with
     | some (.vobj tsub) => mergeSafe tsub ssub
     | _ => true)
    && rest.all (fun p => p.1 != k)
    && mergeSafe tf rest
  | (k, _) :: rest =>
    (match jsLookup tf k with
     | some (.vobj _) => false
     | _ => true)
    && rest.all (fun p => p.1 != k)
    && mergeSafe tf rest
  termination_by sizeOf sf
  decreasing_by all_goals simp <;> omega

theorem deepMergeF_nil (tf : List (String × TValue)) : deepMergeF tf [] = tf := by
  simp [deepMergeF]

theorem deepMergeF_cons_obj (tf : List (String × TValue)) (k : String)
    (ssub : List (String × TValue)) (rest : List (String × TValue)) :
    deepMergeF tf ((k, .vobj ssub) :: rest) =
      deepMergeF
        (jsSet tf k
          (match jsLookup tf k with
           | some (.vobj tsub) => .vobj (deepMergeF tsub ssub)
           | _ => .vobj ssub))
        rest := by
  rw [deepMergeF]

theorem mergeSafe_nil (tf : List (String × TValue)) : mergeSafe tf [] = true := by
  simp [mergeSafe]

theorem mergeSafe_cons_obj (tf : List (String × TValue)) (k : String)
    (ssub : List (String × TValue)) (rest : List (String × TValue)) :
    mergeSafe tf ((k, .vobj ssub) :: rest) =
      ((match jsLookup tf k with
        | some (.vobj tsub) => mergeSafe tsub ssub
        | _ => true)
       && rest.all (fun p => p.1 != k)
       && mergeSafe tf rest) := by
  rw [mergeSafe]



theorem deepMergeF_cons_nonobj (tf : List (String × TValue)) (k : String) (sv : TValue)
    (rest : List (String × TValue)) (h : ∀ ssub, sv ≠ .vobj ssub) :
    deepMergeF tf ((k, sv) :: rest) = deepMergeF (jsSet tf k sv) rest := by
  cases sv with
  | vobj f => exact absurd rfl (h f)
  | vstr s => rw [deepMergeF]; simp
  | vnum n => rw [deepMergeF]; simp
  | vbool b => rw [deepMergeF]; simp
  | vnull => rw [deepMergeF]; simp
  | varr l => rw [deepMergeF]; simp

theorem mergeSafe_cons_nonobj (tf : List (String × TValue)) (k : String) (sv : TValue)
    (rest : List (String × TValue)) (h : ∀ ssub, sv ≠ .vobj ssub) :
    mergeSafe tf ((k, sv) :: rest) =
      ((match jsLookup tf k with
        | some (.vobj _) => false
        | _ => true)
       && rest.all (fun p => p.1 != k)
       && mergeSafe tf rest) := by
  cases sv with
  | vobj f => exact absurd rfl (h f)
  | vstr s => rw [mergeSafe]; simp
  | vnum n => rw [mergeSafe]; simp
  | vbool b => rw [mergeSafe]; simp
  | vnull => rw [mergeSafe]; simp
  | varr l => rw [mergeSafe]; simp

theorem mergeSafe_jsSet (sf : List (String × TValue)) :
    ∀ (tf : List (String × TValue)) (k : String) (nv : TValue),
      sf.all (fun p => p.1 != k) = true →
      mergeSafe (jsSet tf k nv) sf = mergeSafe tf sf := by
  induction sf with
  | nil => intro tf k nv _; simp [mergeSafe_nil]
  | cons p rest ih =>
    intro tf k nv hall
    obtain ⟨k1, sv1⟩ := p
    simp only [List.all_cons, Bool.and_eq_true, bne_iff_ne] at hall
    obtain ⟨hk1, hrest⟩ := hall
    have hlk : jsLookup (jsSet tf k nv) k1 = jsLookup tf k1 := by
      rw [jsLookup_jsSet, if_neg (fun hc => hk1 hc.symm)]
    have hih := ih tf k nv hrest
    by_cases hobj : ∃ ssub, sv1 = TValue.vobj ssub
    · obtain ⟨ssub, hs⟩ := hobj
      subst hs
      rw [mergeSafe_cons_obj, mergeSafe_cons_obj, hlk, hih]
    · push_neg at hobj
      rw [mergeSafe_cons_nonobj _ _ _ _ (fun s hs => hobj s hs),
          mergeSafe_cons_nonobj _ _ _ _ (fun s hs => hobj s hs), hlk, hih]

theorem getNestedValue_nonobj_cons (w : TValue) (q : String) (qs : List String)
    (hobj : ∀ fields, w ≠ .vobj fields) :
    getNestedValue w (q :: qs) = none := by
  cases w with
  | vobj fields => exact absurd rfl (hobj fields)
  | vstr s => rfl
  | vnum n => rfl
  | vbool b => rfl
  | vnull => rfl
  | varr items => rfl



theorem getNestedValue_nil (v : TValue) : getNestedValue v [] = some v := by
  cases v <;> rfl

theorem deepMergeF_preserves_aux :
    ∀ (n : Nat) (sf tf : List (String × TValue)) (path : List String) (v : TValue),
      sizeOf sf ≤ n → mergeSafe tf sf = true →
      getNestedValue (.vobj tf) path = some v →
      ∃ w, getNestedValue (.vobj (deepMergeF tf sf)) path = some w := by
  intro n
  induction n with
  | zero =>
    intro sf tf path v hsz
    exfalso
    have : 0 < sizeOf sf := by cases sf <;> simp
    omega
  | succ n ih =>
    intro sf tf path v hsz hsafe hget
    cases sf with
    | nil => rw [deepMergeF_nil]; exact ⟨v, hget⟩
    | cons hd rest =>
      obtain ⟨k, sv⟩ := hd
      by_cases hsvobj : ∃ ssub, sv = TValue.vobj ssub
      · -- source value is a plain mapping
        obtain ⟨ssub, hs⟩ := hsvobj
        subst hs
        rw [mergeSafe_cons_obj] at hsafe
        simp only [Bool.and_eq_true] at hsafe
        obtain ⟨⟨hhead, hkeys⟩, hrest⟩ := hsafe
        rw [deepMergeF_cons_obj]
        have hszrest : sizeOf rest ≤ n := by simp at hsz; omega
        have hszsub : sizeOf ssub ≤ n := by simp at hsz; omega
        have hsafety : mergeSafe
            (jsSet tf k (match jsLookup tf k with
              | some (.vobj tsub) => TValue.vobj (deepMergeF tsub ssub)
              | _ => TValue.vobj ssub)) rest = true := by
          rw [mergeSafe_jsSet rest tf k _ hkeys]
          exact hrest
        have hstep : ∃ w1, getNestedValue
            (.vobj (jsSet tf k (match jsLookup tf k with
              | some (.vobj tsub) => TValue.vobj (deepMergeF tsub ssub)
              | _ => TValue.vobj ssub))) path = some w1 := by
          cases path with
          | nil => exact ⟨_, rfl⟩
          | cons k0 p =>
            simp only [getNestedValue] at hget ⊢
            rw [jsLookup_jsSet]
            by_cases hk : k = k0
            · rw [if_pos hk]
              cases hl : jsLookup tf k0 with
              | none => simp [hl] at hget
              | some tv =>
                simp only [hl] at hget
                have hlk : jsLookup tf k = some tv := by rw [hk, hl]
                cases tv with
                | vobj tsub =>
                  simp only [hlk] at hhead ⊢
                  exact ih ssub tsub p v hszsub hhead hget
                | vstr s =>
                  simp only [hlk]
                  cases p with
                  | nil => exact ⟨_, rfl⟩
                  | cons q qs => simp [getNestedValue] at hget
                | vnum m =>
                  simp only [hlk]
                  cases p with
                  | nil => exact ⟨_, rfl⟩
                  | cons q qs => simp [getNestedValue] at hget
                | vbool b =>
                  simp only [hlk]
                  cases p with
                  | nil => exact ⟨_, rfl⟩
                  | cons q qs => simp [getNestedValue] at hget
                | vnull =>
                  simp only [hlk]
                  cases p with
                  | nil => exact ⟨_, rfl⟩
                  | cons q qs => simp [getNestedValue] at hget
                | varr items =>
                  simp only [hlk]
                  cases p with
                  | nil => exact ⟨_, rfl⟩
                  | cons q qs => simp [getNestedValue] at hget
            · rw [if_neg hk]
              cases hl : jsLookup tf k0 with
              | none => simp [hl] at hget
              | some tv =>
                simp only [hl] at hget ⊢
                exact ⟨v, hget⟩
        obtain ⟨w1, hw1⟩ := hstep
        exact ih rest _ path w1 hszrest hsafety hw1
      · -- source value is not a plain mapping: overwrite
        push_neg at hsvobj
        rw [mergeSafe_cons_nonobj _ _ _ _ hsvobj] at hsafe
        simp only [Bool.and_eq_true] at hsafe
        obtain ⟨⟨hhead, hkeys⟩, hrest⟩ := hsafe
        rw [deepMergeF_cons_nonobj _ _ _ _ hsvobj]
        have hszrest : sizeOf rest ≤ n := by simp at hsz; omega
        have hsafety : mergeSafe (jsSet tf k sv) rest = true := by
          rw [mergeSafe_jsSet rest tf k _ hkeys]
          exact hrest
        have hstep : ∃ w1, getNestedValue (.vobj (jsSet tf k sv)) path = some w1 := by
          cases path with
          | nil => exact ⟨_, rfl⟩
          | cons k0 p =>
            simp only [getNestedValue] at hget ⊢
            rw [jsLookup_jsSet]
            by_cases hk : k = k0
            · rw [if_pos hk]
              cases hl : jsLookup tf k0 with
              | none => simp [hl] at hget
              | some tv =>
                simp only [hl] at hget
                have hlk : jsLookup tf k = some tv := by rw [hk, hl]
                cases tv with
                | vobj tsub =>
                  rw [hlk] at hhead
                  simp at hhead
                | vstr s =>
                  cases p with
                  | nil => exact ⟨sv, by simp [getNestedValue_nil]⟩
                  | cons q qs => simp [getNestedValue] at hget
                | vnum m =>
                  cases p with
                  | nil => exact ⟨sv, by simp [getNestedValue_nil]⟩
                  | cons q qs => simp [getNestedValue] at hget
                | vbool b =>
                  cases p with
                  | nil => exact ⟨sv, by simp [getNestedValue_nil]⟩
                  | cons q qs => simp [getNestedValue] at hget
                | vnull =>
                  cases p with
                  | nil => exact ⟨sv, by simp [getNestedValue_nil]⟩
                  | cons q qs => simp [getNestedValue] at hget
                | varr items =>
                  cases p with
                  | nil => exact ⟨sv, by simp [getNestedValue_nil]⟩
                  | cons q qs => simp [getNestedValue] at hget
            · rw [if_neg hk]
              cases hl : jsLookup tf k0 with
              | none => simp [hl] at hget
              | some tv =>
                simp only [hl] at hget ⊢
                exact ⟨v, hget⟩
        obtain ⟨w1, hw1⟩ := hstep
        exact ih rest _ path w1 hszrest hsafety hw1



/-- C9, counterexample: the tree can shrink. Merging `{a: "y"}` into
`{a: {b: "x"}}` overwrites the mapping at `a` with a string, and the
dot-path `a.b`, which resolved to `"x"` before the merge, no longer
resolves afterwards. -/
theorem C9_counterexample :
    resolveIn [("en", [("a", TValue.vobj [("b", TValue.vstr "x")])])] "en" ["a", "b"] =
      some (TValue.vstr "x") ∧
    resolveIn (addTranslationsT [("en", [("a", TValue.vobj [("b", TValue.vstr "x")])])]
      "en" [("a", TValue.vstr "y")]) "en" ["a", "b"] = none := by
  constructor
  · rfl
  · simp [addTranslationsT, resolveIn, deepMergeF, jsSet, jsLookup, getNestedValue]

/-- C9, amended: `addTranslations` never loses a resolvable dot-path provided
the merge never overwrites an existing plain mapping — whenever, at any
level, the partial shares a key with the existing tree and the existing
value there is a plain mapping, the partial's value is a plain mapping
too (`mergeSafe`). Under that condition every dot-path of every locale
that resolved to some value before the deep-merge still resolves to some
value afterwards. In general an overwrite removes the paths through the
overwritten mapping (see the counterexample). -/
theorem C9_addTranslations_grows_amended
    (tr : List (String × List (String × TValue))) (locale : String)
    (pf : List (String × TValue))
    (hsafe : mergeSafe ((jsLookup tr locale).getD []) pf = true) :
    ∀ (loc : String) (path : List String) (v : TValue),
      resolveIn tr loc path = some v →
      ∃ w, resolveIn (addTranslationsT tr locale pf) loc path = some w := by
  intro loc path v hres
  unfold resolveIn at hres ⊢
  unfold addTranslationsT
  rw [jsLookup_jsSet]
  by_cases hloc : locale = loc
  · rw [if_pos hloc]
    subst hloc
    cases hl : jsLookup tr locale with
    | none => rw [hl] at hres; simp at hres
    | some fields =>
      simp only [hl, Option.getD_some] at hres hsafe ⊢
      exact deepMergeF_preserves_aux (sizeOf pf) pf fields path v (Nat.le_refl _) hsafe hres
  · rw [if_neg hloc]
    cases hl : jsLookup tr loc with
    | none => rw [hl] at hres; simp at hres
    | some fields =>
      simp only [hl] at hres ⊢
      exact ⟨v, hres⟩

/-- C9, witness: overwriting the string at `a` with another string is a safe
merge, and the path `a` still resolves afterwards. -/
theorem C9_addTranslations_grows_witness :
    mergeSafe ((jsLookup [("en", [("a", TValue.vstr "x")])] "en").getD [])
      [("a", TValue.vstr "y")] = true ∧
    resolveIn [("en", [("a", TValue.vstr "x")])] "en" ["a"] = some (TValue.vstr "x") ∧
    (∃ w, resolveIn (addTranslationsT [("en", [("a", TValue.vstr "x")])] "en"
      [("a", TValue.vstr "y")]) "en" ["a"] = some w) :=
  ⟨by simp [mergeSafe, jsLookup],
   rfl,
   C9_addTranslations_grows_amended [("en", [("a", TValue.vstr "x")])] "en"
     [("a", TValue.vstr "y")] (by simp [mergeSafe, jsLookup]) "en" ["a"]
     (TValue.vstr "x") rfl⟩

end BfI18n

namespace BfI18n

/-! ## Translate fallback order (claim C4) -/


theorem chainFirst_none (f : String → Option String) (l : List String)
    (h : ∀ x ∈ l, f x = none) : chainFirst f l = none := by
  induction l with
  | nil => rfl
  | cons a rest ih =>
    simp only [chainFirst, h a (List.mem_cons_self a rest)]
    exact ih fun x hx => h x (List.mem_cons_of_mem a hx)

/-- C4, counterexample: the claim says `translate` never throws for a mere
miss. With a missing key and `options.default = []` (an empty sequence,
legal for the declared `string | string[]` type), `options.default[0]` is
`undefined` and `interpolate` throws a `TypeError` — the call fails
instead of returning the interpolated default. -/
theorem C4_counterexample :
    translate (fun _ _ => PCat.other)
      { translations := []
        locale := "en"
        fallbackLocales := ["en"]
        ipre := railsPre
        isuf := railsSuf
        ptype := .key
        plocale := "en" }
      "k" { dflt := some (.inr []) } = .error () := rfl

/-- C4, amended: when no locale in the fallback chain yields a value,
`translate` returns, in priority order: the interpolated `options.default`
(the string itself, or the first element of a nonempty sequence) when it
is defined — except that an empty default sequence makes the call throw a
`TypeError`; else the `missingTranslationHandler`'s result when it returns
a defined string; else the full scoped key itself. -/
theorem C4_translate_miss_amended (sel : String → Int → PCat) (cfg : TransCfg)
    (key : String) (o : TOptions)
    (hmiss : ∀ loc ∈ buildFallbackChain cfg.fallbackLocales (o.loc.getD cfg.locale),
      translateForLocale sel cfg (applyScope key o.scope) loc o = none) :
    translate sel cfg key o =
      match o.dflt with
      | some (.inl s) =>
        .ok (String.mk (interpAux cfg.ipre cfg.isuf (optionsValues o) s.toList))
      | some (.inr (d :: _)) =>
        .ok (String.mk (interpAux cfg.ipre cfg.isuf (optionsValues o) d.toList))
      | some (.inr []) => .error ()
      | none =>
        match cfg.handler with
        | some h =>
          match h (applyScope key o.scope) (o.loc.getD cfg.locale) with
          | some r => .ok r
          | none => .ok (applyScope key o.scope)
        | none => .ok (applyScope key o.scope) := by
  simp only [translate]
  rw [chainFirst_none _ _ hmiss]

/-- C4, witness: with an empty tree, no default and no handler, the miss
falls through to the key itself. -/
theorem C4_translate_miss_amended_witness :
    (∀ loc ∈ buildFallbackChain (["en"] : List String) "en",
      translateForLocale (fun _ _ => PCat.other)
        ⟨[], "en", ["en"], railsPre, railsSuf, .key, "en", none⟩
        "k" loc ⟨none, none, none, none, []⟩ = none) ∧
    translate (fun _ _ => PCat.other)
      ⟨[], "en", ["en"], railsPre, railsSuf, .key, "en", none⟩
      "k" ⟨none, none, none, none, []⟩ = .ok "k" := by
  have hmiss : ∀ loc ∈ buildFallbackChain (["en"] : List String) "en",
      translateForLocale (fun _ _ => PCat.other)
        ⟨[], "en", ["en"], railsPre, railsSuf, .key, "en", none⟩
        "k" loc ⟨none, none, none, none, []⟩ = none := by
    intro loc _
    rfl
  refine ⟨hmiss, ?_⟩
  rw [C4_translate_miss_amended (fun _ _ => PCat.other)
    ⟨[], "en", ["en"], railsPre, railsSuf, .key, "en", none⟩ "k"
    ⟨none, none, none, none, []⟩ hmiss]
  rfl

end BfI18n

namespace BfI18n

/-! ## Pipe round trip (claim C5) -/


/-- A value character that cannot disturb the pipe-plural syntax: not a pipe,
not a bracket or brace, not a line terminator. -/
def plainPluralChar (c : Char) : Bool :=
  c != '|' && c != '[' && c != ']' && c != '{' && c != '}' && !isLineTerm c

/-- A plural-form text that survives the pipe round trip: plain characters
only, with no leading or trailing whitespace. -/
def goodPluralText (s : String) : Bool :=
  s.toList.all plainPluralChar &&
  (match s.toList.head? with | some c => !isJsSpace c | none => true) &&
  (match s.toList.getLast? with | some c => !isJsSpace c | none => true)

theorem toList_mk (l : List Char) : (String.mk l).toList = l := rfl

theorem splitByPipeAux_plain (v : List Char) : ∀ (b : Bool) (cur rest : List Char),
    v.all plainPluralChar = true →
    splitByPipeAux b cur (v ++ rest) = splitByPipeAux b (cur ++ v) rest := by
  induction v with
  | nil => intro b cur rest _; simp
  | cons c cs ih =>
    intro b cur rest hall
    simp only [List.all_cons, Bool.and_eq_true] at hall
    obtain ⟨hc, hcs⟩ := hall
    have hflag : updateBracketFlag b c = b := by
      unfold updateBracketFlag
      have h1 : ¬(c = '[' ∨ c = '{') := by
        rintro (h | h) <;> simp [plainPluralChar, h] at hc
      have h2 : ¬(c = ']' ∨ c = '}') := by
        rintro (h | h) <;> simp [plainPluralChar, h] at hc
      rw [if_neg h1, if_neg h2]
    have hpipe : ¬(c = '|' ∧ updateBracketFlag b c = false) := by
      rintro ⟨h, _⟩
      simp [plainPluralChar, h] at hc
    show splitByPipeAux b cur (c :: (cs ++ rest)) = _
    simp only [splitByPipeAux, hflag]
    rw [if_neg (fun h => hpipe ⟨h.1, by rw [hflag]; exact h.2⟩)]
    calc splitByPipeAux b (cur ++ [c]) (cs ++ rest)
        = splitByPipeAux b ((cur ++ [c]) ++ cs) rest := ih b (cur ++ [c]) rest hcs
      _ = splitByPipeAux b (cur ++ c :: cs) rest := by
          rw [List.append_assoc]
          rfl

theorem splitSeg (z : List Char) (cur rest : List Char)
    (hz : z.all plainPluralChar = true) :
    splitByPipeAux false cur (z ++ '|' :: rest) =
      (cur ++ z) :: splitByPipeAux false [] rest := by
  rw [splitByPipeAux_plain z false cur ('|' :: rest) hz]
  simp [splitByPipeAux, updateBracketFlag]

theorem splitEnd (z : List Char) (cur : List Char)
    (hz : z.all plainPluralChar = true) (hne : cur ++ z ≠ []) :
    splitByPipeAux false cur z = [cur ++ z] := by
  calc splitByPipeAux false cur z
      = splitByPipeAux false cur (z ++ []) := by rw [List.append_nil]
    _ = splitByPipeAux false (cur ++ z) [] := splitByPipeAux_plain z false cur [] hz
    _ = [cur ++ z] := by simp [splitByPipeAux, hne]

theorem step_h0 (cur rest : List Char) :
    splitByPipeAux false cur ('{' :: '0' :: '}' :: ' ' :: rest) =
      splitByPipeAux false (cur ++ ['{', '0', '}', ' ']) rest := by
  simp [splitByPipeAux, updateBracketFlag]

theorem step_h1 (cur rest : List Char) :
    splitByPipeAux false cur ('{' :: '1' :: '}' :: ' ' :: rest) =
      splitByPipeAux false (cur ++ ['{', '1', '}', ' ']) rest := by
  simp [splitByPipeAux, updateBracketFlag]

theorem step_h2 (cur rest : List Char) :
    splitByPipeAux false cur ('[' :: '2' :: ',' :: '*' :: ']' :: ' ' :: rest) =
      splitByPipeAux false (cur ++ ['[', '2', ',', '*', ']', ' ']) rest := by
  simp [splitByPipeAux, updateBracketFlag]



theorem good_parts (z : String) (hz : goodPluralText z = true) :
    z.toList.all plainPluralChar = true ∧
    (∀ c, z.toList.head? = some c → isJsSpace c = false) ∧
    (∀ c, z.toList.getLast? = some c → isJsSpace c = false) := by
  simp only [goodPluralText, Bool.and_eq_true] at hz
  obtain ⟨⟨hall, hhead⟩, hlast⟩ := hz
  refine ⟨hall, ?_, ?_⟩
  · intro c hc
    rw [hc] at hhead
    simpa using hhead
  · intro c hc
    rw [hc] at hlast
    simpa using hlast

theorem jsTrimL_eq_self (l : List Char)
    (hhead : ∀ c, l.head? = some c → isJsSpace c = false)
    (hlast : ∀ c, l.getLast? = some c → isJsSpace c = false) :
    jsTrimL l = l := by
  unfold jsTrimL
  have h1 : l.dropWhile isJsSpace = l := by
    cases l with
    | nil => rfl
    | cons c cs =>
      rw [List.dropWhile_cons]
      simp [hhead c rfl]
  rw [h1]
  have h2 : l.reverse.dropWhile isJsSpace = l.reverse := by
    cases hr : l.reverse with
    | nil => rfl
    | cons c cs =>
      have hc : l.getLast? = some c := by
        rw [← List.head?_reverse, hr]
        rfl
      rw [List.dropWhile_cons]
      simp [hlast c hc]
  rw [h2, List.reverse_reverse]

theorem no_lt_of_plain (zL : List Char) (hplain : zL.all plainPluralChar = true) :
    zL.all (fun c => !isLineTerm c) = true := by
  simp only [List.all_eq_true] at hplain ⊢
  intro c hc
  have h := hplain c hc
  simp only [plainPluralChar, Bool.and_eq_true] at h
  exact h.2

theorem dropWhile_value (zL : List Char)
    (hhead : ∀ c, zL.head? = some c → isJsSpace c = false) :
    zL.dropWhile isJsSpace = zL := by
  cases zL with
  | nil => rfl
  | cons c cs =>
    rw [List.dropWhile_cons]
    simp [hhead c rfl]

theorem matchSpaceRest_value (zL : List Char)
    (hhead : ∀ c, zL.head? = some c → isJsSpace c = false)
    (hplain : zL.all plainPluralChar = true) :
    matchSpaceRest (' ' :: zL) = some zL := by
  unfold matchSpaceRest
  have h1 : (' ' :: zL).dropWhile isJsSpace = zL := by
    rw [List.dropWhile_cons]
    simp only [show isJsSpace ' ' = true from by decide, if_true]
    exact dropWhile_value zL hhead
  simp only [h1, no_lt_of_plain zL hplain, if_true]

theorem matchExact_hdr0 (zL : List Char)
    (hhead : ∀ c, zL.head? = some c → isJsSpace c = false)
    (hplain : zL.all plainPluralChar = true) :
    matchExact ('{' :: '0' :: '}' :: ' ' :: zL) = some (0, zL) := by
  have hds : ('0' :: '}' :: ' ' :: zL).takeWhile isDigitChar = ['0'] := by
    rw [List.takeWhile_cons, List.takeWhile_cons]
    simp [isDigitChar]
  simp [matchExact, hds, matchSpaceRest_value zL hhead hplain, digitsToNat]

theorem matchExact_hdr1 (zL : List Char)
    (hhead : ∀ c, zL.head? = some c → isJsSpace c = false)
    (hplain : zL.all plainPluralChar = true) :
    matchExact ('{' :: '1' :: '}' :: ' ' :: zL) = some (1, zL) := by
  have hds : ('1' :: '}' :: ' ' :: zL).takeWhile isDigitChar = ['1'] := by
    rw [List.takeWhile_cons, List.takeWhile_cons]
    simp [isDigitChar]
  simp [matchExact, hds, matchSpaceRest_value zL hhead hplain, digitsToNat]

theorem matchRange_hdr (zL : List Char)
    (hhead : ∀ c, zL.head? = some c → isJsSpace c = false)
    (hplain : zL.all plainPluralChar = true) :
    matchRange ('[' :: '2' :: ',' :: '*' :: ']' :: ' ' :: zL) =
      some (2, ENum.inf, zL) := by
  have hds : ('2' :: ',' :: '*' :: ']' :: ' ' :: zL).takeWhile isDigitChar = ['2'] := by
    rw [List.takeWhile_cons, List.takeWhile_cons]
    simp [isDigitChar]
  simp [matchRange, hds, matchSpaceRest_value zL hhead hplain, digitsToNat]



theorem getLast?_cons_append (a b c d : Char) (zL : List Char) :
    (a :: b :: c :: d :: zL).getLast? = (if zL = [] then some d else zL.getLast?) := by
  split
  · rename_i h; subst h; rfl
  · rename_i h
    show ([a, b, c, d] ++ zL).getLast? = _
    rw [List.getLast?_append_of_ne_nil _ h]

theorem parseRule_zero (z : String) (hz : goodPluralText z = true) (i total : Nat) :
    parseRule (jsTrimL ('{' :: '0' :: '}' :: ' ' :: z.toList)) i total =
      { exact := some 0, text := z } := by
  obtain ⟨hall, hhead, hlast⟩ := good_parts z hz
  by_cases hnil : z.toList = []
  · have hz0 : z = "" := by
      have h := congrArg String.mk hnil
      exact h
    rw [hnil]
    have h1 : jsTrimL ['{', '0', '}', ' '] = ['{', '0', '}'] := by decide
    have h2 : matchExact ['{', '0', '}'] = some (0, []) := by decide
    simp [parseRule, h1, h2, hz0]
  · have htrim : jsTrimL ('{' :: '0' :: '}' :: ' ' :: z.toList) =
        '{' :: '0' :: '}' :: ' ' :: z.toList := by
      apply jsTrimL_eq_self
      · intro c hc
        simp only [List.head?_cons, Option.some.injEq] at hc
        subst hc
        decide
      · intro c hc
        rw [getLast?_cons_append, if_neg hnil] at hc
        exact hlast c hc
    rw [htrim]
    unfold parseRule
    rw [matchExact_hdr0 z.toList hhead hall]
    rfl

theorem parseRule_one (z : String) (hz : goodPluralText z = true) (i total : Nat) :
    parseRule (jsTrimL ('{' :: '1' :: '}' :: ' ' :: z.toList)) i total =
      { exact := some 1, text := z } := by
  obtain ⟨hall, hhead, hlast⟩ := good_parts z hz
  by_cases hnil : z.toList = []
  · have hz0 : z = "" := by
      have h := congrArg String.mk hnil
      exact h
    rw [hnil]
    have h1 : jsTrimL ['{', '1', '}', ' '] = ['{', '1', '}'] := by decide
    have h2 : matchExact ['{', '1', '}'] = some (1, []) := by decide
    simp [parseRule, h1, h2, hz0]
  · have htrim : jsTrimL ('{' :: '1' :: '}' :: ' ' :: z.toList) =
        '{' :: '1' :: '}' :: ' ' :: z.toList := by
      apply jsTrimL_eq_self
      · intro c hc
        simp only [List.head?_cons, Option.some.injEq] at hc
        subst hc
        decide
      · intro c hc
        rw [getLast?_cons_append, if_neg hnil] at hc
        exact hlast c hc
    rw [htrim]
    unfold parseRule
    rw [matchExact_hdr1 z.toList hhead hall]
    rfl

theorem getLast?_range_append (zL : List Char) :
    ('[' :: '2' :: ',' :: '*' :: ']' :: ' ' :: zL).getLast? =
      (if zL = [] then some ' ' else zL.getLast?) := by
  split
  · rename_i h; subst h; rfl
  · rename_i h
    show (['[', '2', ',', '*', ']', ' '] ++ zL).getLast? = _
    rw [List.getLast?_append_of_ne_nil _ h]

theorem parseRule_other (z : String) (hz : goodPluralText z = true) (i total : Nat) :
    parseRule (jsTrimL ('[' :: '2' :: ',' :: '*' :: ']' :: ' ' :: z.toList)) i total =
      { rangeStart := some 2, rangeEnd := some ENum.inf, text := z } := by
  obtain ⟨hall, hhead, hlast⟩ := good_parts z hz
  by_cases hnil : z.toList = []
  · have hz0 : z = "" := by
      have h := congrArg String.mk hnil
      exact h
    rw [hnil]
    have h1 : jsTrimL ['[', '2', ',', '*', ']', ' '] = ['[', '2', ',', '*', ']'] := by decide
    have h2 : matchExact ['[', '2', ',', '*', ']'] = none := by decide
    have h3 : matchRange ['[', '2', ',', '*', ']'] = some (2, ENum.inf, []) := by decide
    simp [parseRule, h1, h2, h3, hz0]
  · have htrim : jsTrimL ('[' :: '2' :: ',' :: '*' :: ']' :: ' ' :: z.toList) =
        '[' :: '2' :: ',' :: '*' :: ']' :: ' ' :: z.toList := by
      apply jsTrimL_eq_self
      · intro c hc
        simp only [List.head?_cons, Option.some.injEq] at hc
        subst hc
        decide
      · intro c hc
        rw [getLast?_range_append, if_neg hnil] at hc
        exact hlast c hc
    rw [htrim]
    have h2 : matchExact ('[' :: '2' :: ',' :: '*' :: ']' :: ' ' :: z.toList) = none := rfl
    unfold parseRule
    rw [h2, matchRange_hdr z.toList hhead hall]
    rfl



/-- C5, amended: for a nonempty rails plural object with keys drawn from
zero/one/other whose values contain no pipe, bracket, brace or line
terminator characters and no leading or trailing whitespace,
`pipeToKey(keyToPipe(obj))` reproduces the object exactly. -/
theorem C5_keyToPipe_roundtrip_amended (m : ZooMap)
    (hne : m ≠ { zero := none, one := none, other := none })
    (hz : ∀ z, m.zero = some z → goodPluralText z = true)
    (ho : ∀ o, m.one = some o → goodPluralText o = true)
    (ht : ∀ t, m.other = some t → goodPluralText t = true) :
    pipeToKey (keyToPipe m) = some (zooRecord m) := by
  obtain ⟨zq, oq, tq⟩ := m
  rcases zq with _ | z <;> rcases oq with _ | o <;> rcases tq with _ | t
  · exact absurd rfl hne
  · -- other only
    have hgt := good_parts t (ht t rfl)
    have hsplit : splitByPipeL (keyToPipeL ⟨none, none, some t⟩) =
        [('[' :: '2' :: ',' :: '*' :: ']' :: ' ' :: t.toList)] := by
      show splitByPipeAux false [] ('[' :: '2' :: ',' :: '*' :: ']' :: ' ' :: t.toList) = _
      rw [step_h2, splitEnd t.toList _ hgt.1 (by simp)]
      rfl
    simp only [pipeToKey, keyToPipe, toList_mk, parsePipeSeparatedL, hsplit,
      List.length_cons, List.length_nil, parseRulesAux,
      parseRule_other t (ht t rfl)]
    simp [pipeToKeyFold, jsSet, zooRecord]
  · -- one only
    have hgo := good_parts o (ho o rfl)
    have hsplit : splitByPipeL (keyToPipeL ⟨none, some o, none⟩) =
        [('{' :: '1' :: '}' :: ' ' :: o.toList)] := by
      show splitByPipeAux false [] ('{' :: '1' :: '}' :: ' ' :: o.toList) = _
      rw [step_h1, splitEnd o.toList _ hgo.1 (by simp)]
      rfl
    simp only [pipeToKey, keyToPipe, toList_mk, parsePipeSeparatedL, hsplit,
      List.length_cons, List.length_nil, parseRulesAux,
      parseRule_one o (ho o rfl)]
    simp [pipeToKeyFold, jsSet, zooRecord]
  · -- one and other
    have hgo := good_parts o (ho o rfl)
    have hgt := good_parts t (ht t rfl)
    have hsplit : splitByPipeL (keyToPipeL ⟨none, some o, some t⟩) =
        [('{' :: '1' :: '}' :: ' ' :: o.toList),
         ('[' :: '2' :: ',' :: '*' :: ']' :: ' ' :: t.toList)] := by
      show splitByPipeAux false []
        (('{' :: '1' :: '}' :: ' ' :: o.toList) ++
          '|' :: ('[' :: '2' :: ',' :: '*' :: ']' :: ' ' :: t.toList)) = _
      simp only [List.cons_append]
      rw [step_h1, splitSeg o.toList _ _ hgo.1, step_h2,
        splitEnd t.toList _ hgt.1 (by simp)]
      rfl
    simp only [pipeToKey, keyToPipe, toList_mk, parsePipeSeparatedL, hsplit,
      List.length_cons, List.length_nil, parseRulesAux,
      parseRule_one o (ho o rfl), parseRule_other t (ht t rfl)]
    simp [pipeToKeyFold, jsSet, zooRecord]
  · -- zero only
    have hgz := good_parts z (hz z rfl)
    have hsplit : splitByPipeL (keyToPipeL ⟨some z, none, none⟩) =
        [('{' :: '0' :: '}' :: ' ' :: z.toList)] := by
      show splitByPipeAux false [] ('{' :: '0' :: '}' :: ' ' :: z.toList) = _
      rw [step_h0, splitEnd z.toList _ hgz.1 (by simp)]
      rfl
    simp only [pipeToKey, keyToPipe, toList_mk, parsePipeSeparatedL, hsplit,
      List.length_cons, List.length_nil, parseRulesAux,
      parseRule_zero z (hz z rfl)]
    simp [pipeToKeyFold, jsSet, zooRecord]
  · -- zero and other
    have hgz := good_parts z (hz z rfl)
    have hgt := good_parts t (ht t rfl)
    have hsplit : splitByPipeL (keyToPipeL ⟨some z, none, some t⟩) =
        [('{' :: '0' :: '}' :: ' ' :: z.toList),
         ('[' :: '2' :: ',' :: '*' :: ']' :: ' ' :: t.toList)] := by
      show splitByPipeAux false []
        (('{' :: '0' :: '}' :: ' ' :: z.toList) ++
          '|' :: ('[' :: '2' :: ',' :: '*' :: ']' :: ' ' :: t.toList)) = _
      simp only [List.cons_append]
      rw [step_h0, splitSeg z.toList _ _ hgz.1, step_h2,
        splitEnd t.toList _ hgt.1 (by simp)]
      rfl
    simp only [pipeToKey, keyToPipe, toList_mk, parsePipeSeparatedL, hsplit,
      List.length_cons, List.length_nil, parseRulesAux,
      parseRule_zero z (hz z rfl), parseRule_other t (ht t rfl)]
    simp [pipeToKeyFold, jsSet, zooRecord]
  · -- zero and one
    have hgz := good_parts z (hz z rfl)
    have hgo := good_parts o (ho o rfl)
    have hsplit : splitByPipeL (keyToPipeL ⟨some z, some o, none⟩) =
        [('{' :: '0' :: '}' :: ' ' :: z.toList),
         ('{' :: '1' :: '}' :: ' ' :: o.toList)] := by
      show splitByPipeAux false []
        (('{' :: '0' :: '}' :: ' ' :: z.toList) ++
          '|' :: ('{' :: '1' :: '}' :: ' ' :: o.toList)) = _
      simp only [List.cons_append]
      rw [step_h0, splitSeg z.toList _ _ hgz.1, step_h1,
        splitEnd o.toList _ hgo.1 (by simp)]
      rfl
    simp only [pipeToKey, keyToPipe, toList_mk, parsePipeSeparatedL, hsplit,
      List.length_cons, List.length_nil, parseRulesAux,
      parseRule_zero z (hz z rfl), parseRule_one o (ho o rfl)]
    simp [pipeToKeyFold, jsSet, zooRecord]
  · -- zero, one and other
    have hgz := good_parts z (hz z rfl)
    have hgo := good_parts o (ho o rfl)
    have hgt := good_parts t (ht t rfl)
    have hsplit : splitByPipeL (keyToPipeL ⟨some z, some o, some t⟩) =
        [('{' :: '0' :: '}' :: ' ' :: z.toList),
         ('{' :: '1' :: '}' :: ' ' :: o.toList),
         ('[' :: '2' :: ',' :: '*' :: ']' :: ' ' :: t.toList)] := by
      show splitByPipeAux false []
        ((('{' :: '0' :: '}' :: ' ' :: z.toList) ++
            '|' :: ('{' :: '1' :: '}' :: ' ' :: o.toList)) ++
          '|' :: ('[' :: '2' :: ',' :: '*' :: ']' :: ' ' :: t.toList)) = _
      simp only [List.cons_append, List.append_assoc]
      rw [step_h0, splitSeg z.toList _ _ hgz.1, step_h1, splitSeg o.toList _ _ hgo.1,
        step_h2, splitEnd t.toList _ hgt.1 (by simp)]
      rfl
    simp only [pipeToKey, keyToPipe, toList_mk, parsePipeSeparatedL, hsplit,
      List.length_cons, List.length_nil, parseRulesAux,
      parseRule_zero z (hz z rfl), parseRule_one o (ho o rfl),
      parseRule_other t (ht t rfl)]
    simp [pipeToKeyFold, jsSet, zooRecord]



/-- C5, counterexample: the round trip is not lossless for every
zero/one/other object. With `{one: "a|b"}` the value's own pipe splits the
generated string `"{1} a|b"` into two segments, and the trip returns
`{one: "a", other: "b"}` instead of the original object. -/
theorem C5_counterexample :
    pipeToKey (keyToPipe { one := some "a|b" }) = some [("one", "a"), ("other", "b")] ∧
    zooRecord { one := some "a|b" } = [("one", "a|b")] ∧
    ([("one", "a"), ("other", "b")] : List (String × String)) ≠ [("one", "a|b")] := by
  refine ⟨by decide, by decide, by decide⟩

/-- C5, witness: the round trip at `{zero: "Z", one: "O", other: "M"}`. -/
theorem C5_keyToPipe_roundtrip_witness :
    (({ zero := some "Z", one := some "O", other := some "M" } : ZooMap) ≠
      { zero := none, one := none, other := none }) ∧
    goodPluralText "Z" = true ∧ goodPluralText "O" = true ∧ goodPluralText "M" = true ∧
    pipeToKey (keyToPipe { zero := some "Z", one := some "O", other := some "M" }) =
      some (zooRecord { zero := some "Z", one := some "O", other := some "M" }) :=
  ⟨by decide, by decide, by decide, by decide,
   C5_keyToPipe_roundtrip_amended
     { zero := some "Z", one := some "O", other := some "M" }
     (by decide)
     (fun x hx => by cases hx; decide)
     (fun x hx => by cases hx; decide)
     (fun x hx => by cases hx; decide)⟩

end BfI18n
